import Mathlib

/-!
# Verification of the flwterm incremental max-flow engine

Shallow embedding of `src/core/ford_fulkerson.py`, `src/core/capacity_scaling.py`
and `src/arcade/airline.py`, together with theorems settling the frozen claims
about the natural-language specification.

Modelling conventions:
* nodes are strings (the code uses string labels, with defaults `'S'`/`'T'`);
* a `networkx.DiGraph` with `capacity`/`flow` attributes is an association list
  keyed by ordered node pairs (Python dict edge-views have unique keys;
  `add_edge` on an existing key overwrites its attributes);
* all numbers are integers (the repository's data feeds integer capacities);
* Python exceptions become `Except` values: `nx.shortest_path` raises
  `NodeNotFound` when source or target is not a node of the graph and
  `NetworkXNoPath` when the sink is unreachable, and only the latter is caught
  by the steppers; the `KeyError` a missing reverse arc would raise during
  augmentation is a third error variant.
-/

abbrev Node := String

/-- The `capacity`/`flow` attribute record stored on each arc of the
`networkx.DiGraph` used by both steppers. -/
structure EdgeData where
  capacity : Int
  flow : Int
  deriving Repr, DecidableEq

/-- A directed graph with edge attributes: an insertion-ordered association
list with (by construction) unique `(src, dst)` keys, mirroring the nested
dict representation of `networkx.DiGraph`. -/
abbrev Graph := List (Node × Node × EdgeData)

/-- Errors raised by the Python code: `nx.NodeNotFound`, `nx.NetworkXNoPath`
(the only one the steppers catch), and the `KeyError` of a missing arc. -/
inductive Err where
  | nodeNotFound
  | noPath
  | keyError
  deriving Repr, DecidableEq

/-- Attribute lookup `G[u][v]` in an edge association list (`none` when
`not G.has_edge(u, v)`); generic over the attribute type so the same model
serves flow graphs and residual graphs. -/
def lookupA {α : Type} : List (Node × Node × α) → Node → Node → Option α
  | [], _, _ => none
  | e :: g, u, v => if e.1 = u ∧ e.2.1 = v then some e.2.2 else lookupA g u v

/-- `G.add_edge(u, v, **attrs)`: overwrite the attributes of an existing edge,
else append a fresh edge (Python dicts preserve insertion order). -/
def setA {α : Type} : List (Node × Node × α) → Node → Node → α → List (Node × Node × α)
  | [], u, v, d => [(u, v, d)]
  | e :: g, u, v, d =>
    if e.1 = u ∧ e.2.1 = v then (u, v, d) :: g else e :: setA g u v d

/-- The ordered-pair keys of an edge association list. -/
def keysA {α : Type} (l : List (Node × Node × α)) : List (Node × Node) :=
  l.map fun e => (e.1, e.2.1)

/-- `G.has_edge(u, v)`. -/
def hasEdge (g : Graph) (u v : Node) : Bool :=
  (lookupA g u v).isSome

/-- One iteration of the `build_graph` loop shared verbatim by
`FordFulkerson.build_graph` and `CapacityScaling.build_graph`:
`add_edge(u, v, capacity=c, flow=0)`, then an implicit zero-capacity reverse
arc when `not has_edge(v, u)`. -/
def buildStep (g : Graph) (e : Node × Node × Int) : Graph :=
  let g1 := setA g e.1 e.2.1 ⟨e.2.2, 0⟩
  if hasEdge g1 e.2.1 e.1 then g1 else g1 ++ [(e.2.1, e.1, ⟨0, 0⟩)]

/-- The graph constructed by `build_graph(data)` from `data['edges']`. -/
def buildGraph (edges : List (Node × Node × Int)) : Graph :=
  edges.foldl buildStep []

/-- Residual subgraph keeping arcs with `capacity - flow ≥ θ`, with the
residual stored as the arc's capacity.  `FordFulkerson.get_residual_graph`
keeps `residual > 0`, i.e. `θ = 1` on integers; `CapacityScaling.step` keeps
`residual >= delta`, i.e. `θ = delta`. -/
def residualAbove (θ : Int) : Graph → List (Node × Node × Int)
  | [] => []
  | (u, v, d) :: g =>
    if θ ≤ d.capacity - d.flow then (u, v, d.capacity - d.flow) :: residualAbove θ g
    else residualAbove θ g

/-- `FordFulkerson.get_residual_graph`. -/
def getResidualGraph (g : Graph) : List (Node × Node × Int) :=
  residualAbove 1 g

/-- The node list of a residual `DiGraph` (source and destination of every
arc; duplicates are irrelevant, only membership is used). -/
def nodesOf : List (Node × Node × Int) → List Node
  | [] => []
  | (u, v, _) :: R => u :: v :: nodesOf R

/-- Out-neighbours of `u`, in arc insertion order. -/
def successors : List (Node × Node × Int) → Node → List Node
  | [], _ => []
  | (a, b, _) :: R, u => if a = u then b :: successors R u else successors R u

/-- BFS enqueue loop: extend the (reversed) path `p` by each successor not yet
visited, marking it visited as it is enqueued. -/
def pushFresh (p : List Node) : List Node → List (List Node) × List Node →
    List (List Node) × List Node
  | [], acc => acc
  | w :: ws, (q, vis) =>
    if w ∈ vis then pushFresh p ws (q, vis)
    else pushFresh p ws (q ++ [w :: p], w :: vis)

/-- Breadth-first search over a residual graph.  Queue entries are reversed
paths (endpoint first, source last); the fuel bounds the number of dequeues,
which is at most one more than the number of enqueued (hence fresh) nodes. -/
def bfsAux (R : List (Node × Node × Int)) (t : Node) :
    Nat → List (List Node) → List Node → Option (List Node)
  | 0, _, _ => none
  | _ + 1, [], _ => none
  | fuel + 1, p :: queue, vis =>
    match p with
    | [] => none
    | u :: _ =>
      if u = t then some p.reverse
      else
        let qv := pushFresh p (successors R u) (queue, vis)
        bfsAux R t fuel qv.1 qv.2

/-- `nx.shortest_path(R, s, t)` for an unweighted graph: `NodeNotFound` when
`s` or `t` is not a node of `R`, the single-node path when `s = t`, otherwise
a breadth-first (fewest-hops) search raising `NetworkXNoPath` on failure. -/
def shortestPath (R : List (Node × Node × Int)) (s t : Node) :
    Except Err (List Node) :=
  if s ∈ nodesOf R ∧ t ∈ nodesOf R then
    if s = t then .ok [s]
    else
      match bfsAux R t ((nodesOf R).length + 1) [[s]] [s] with
      | some p => .ok p
      | none => .error .noPath
  else .error .nodeNotFound

/-- Consecutive node pairs of a path. -/
def consecPairs : List Node → List (Node × Node)
  | u :: v :: rest => (u, v) :: consecPairs (v :: rest)
  | _ => []

/-- Fold of `min` over a list (the Python loop starts from `float('inf')`;
paths produced with distinct source and sink always have at least one arc, so
the default for the empty list is never observable). -/
def minList : List Int → Int
  | [] => 0
  | x :: xs => xs.foldl min x

/-- `bottleneck = min(bottleneck, R[u][v]['capacity'])` over the path. -/
def bottleneckOf (R : List (Node × Node × Int)) (p : List Node) : Int :=
  minList ((consecPairs p).map fun uv => (lookupA R uv.1 uv.2).getD 0)

/-- One iteration of the augmentation loop shared by both steppers:
if the forward arc exists and has room, `flow(u,v) += b`; otherwise
`flow(v,u) -= b` (a `KeyError` if the reverse arc is absent). -/
def augmentEdge (g : Graph) (u v : Node) (b : Int) : Except Err Graph :=
  match lookupA g u v with
  | some d =>
    if d.flow + b ≤ d.capacity then .ok (setA g u v ⟨d.capacity, d.flow + b⟩)
    else match lookupA g v u with
      | some d' => .ok (setA g v u ⟨d'.capacity, d'.flow - b⟩)
      | none => .error .keyError
  | none =>
    match lookupA g v u with
    | some d' => .ok (setA g v u ⟨d'.capacity, d'.flow - b⟩)
    | none => .error .keyError

/-- The full augmentation loop over the found path. -/
def augmentPath : Graph → List Node → Int → Except Err Graph
  | g, u :: v :: rest, b =>
    match augmentEdge g u v b with
    | .ok g' => augmentPath g' (v :: rest) b
    | .error e => .error e
  | g, _, _ => .ok g

/-- State of a `FordFulkerson` engine (the unused `history` field is omitted:
it is initialised and never read or extended). -/
structure FFState where
  graph : Graph
  flowVal : Int
  deriving Repr, DecidableEq

/-- `FordFulkerson.build_graph`. -/
def ffBuild (edges : List (Node × Node × Int)) : FFState :=
  { graph := buildGraph edges, flowVal := 0 }

/-- `FordFulkerson.step(source, sink)`: find a shortest augmenting path in the
positive-residual graph, augment by the bottleneck and add it to `flow_val`;
`NetworkXNoPath` is caught and turned into the `(None, 0)` return; every other
exception propagates. -/
def ffStep (s t : Node) (st : FFState) :
    Except Err ((Option (List Node) × Int) × FFState) :=
  let R := getResidualGraph st.graph
  match shortestPath R s t with
  | .error .noPath => .ok ((none, 0), st)
  | .error e => .error e
  | .ok p =>
    let b := bottleneckOf R p
    match augmentPath st.graph p b with
    | .error e => .error e
    | .ok g' => .ok ((some p, b), { graph := g', flowVal := st.flowVal + b })

/-- Run `n` calls of `FordFulkerson.step`, stopping at the first exception. -/
def ffRun (s t : Node) : Nat → FFState → Except Err FFState
  | 0, st => .ok st
  | n + 1, st =>
    match ffStep s t st with
    | .ok r => ffRun s t n r.2
    | .error e => .error e

/-- Messages returned by `CapacityScaling.step` (Python f-strings, modelled
as an inductive carrying the interpolated values). -/
inductive CSMsg where
  | complete
  | augmented (delta : Int)
  | reducing (oldDelta newDelta : Int)
  deriving Repr, DecidableEq

/-- The loop `delta = 1; while delta * 2 <= max_cap: delta *= 2`, fuelled;
starting from `d ≥ 1` the value doubles each iteration, so `maxCap.toNat`
iterations always suffice. -/
def deltaLoop (maxCap : Int) : Nat → Int → Int
  | 0, d => d
  | fuel + 1, d => if 2 * d ≤ maxCap then deltaLoop maxCap fuel (2 * d) else d

/-- `max_cap = max(max_cap, edge['capacity'])` starting from `0`. -/
def maxCapOf (edges : List (Node × Node × Int)) : Int :=
  edges.foldl (fun m e => max m e.2.2) 0

/-- State of a `CapacityScaling` engine. -/
structure CSState where
  graph : Graph
  delta : Int
  deriving Repr, DecidableEq

/-- `CapacityScaling.build_graph`: same construction as the plain stepper,
plus the initial scaling threshold. -/
def csBuild (edges : List (Node × Node × Int)) : CSState :=
  { graph := buildGraph edges
    delta := deltaLoop (maxCapOf edges) (maxCapOf edges).toNat 1 }

/-- `CapacityScaling.step(source, sink)`: terminal signal when `delta < 1`;
otherwise search the `delta`-residual graph, augmenting on success and halving
`delta` (with the reducing message) when `NetworkXNoPath` is caught. -/
def csStep (s t : Node) (st : CSState) :
    Except Err ((Option (List Node) × Int × CSMsg) × CSState) :=
  if st.delta < 1 then .ok ((none, 0, .complete), st)
  else
    let R := residualAbove st.delta st.graph
    match shortestPath R s t with
    | .error .noPath =>
      .ok ((some [], 0, .reducing st.delta (st.delta / 2)),
        { st with delta := st.delta / 2 })
    | .error e => .error e
    | .ok p =>
      let b := bottleneckOf R p
      match augmentPath st.graph p b with
      | .error e => .error e
      | .ok g' => .ok ((some p, b, .augmented st.delta), { st with graph := g' })

/-- Run `n` calls of `CapacityScaling.step`. -/
def csRun (s t : Node) : Nat → CSState → Except Err CSState
  | 0, st => .ok st
  | n + 1, st =>
    match csStep s t st with
    | .ok r => csRun s t n r.2
    | .error e => .error e

/-- Sum of the signed `flow` fields on arcs leaving `w`. -/
def outflow : Graph → Node → Int
  | [], _ => 0
  | (u, _, d) :: g, w => (if u = w then d.flow else 0) + outflow g w

/-- Sum of the signed `flow` fields on arcs entering `w`. -/
def inflow : Graph → Node → Int
  | [], _ => 0
  | (_, v, d) :: g, w => (if v = w then d.flow else 0) + inflow g w

/-! ## The crew-pairing (airline) reduction, `src/arcade/airline.py` -/

/-- A flight record `{'id': ..., 'start': ..., 'end': ...}`; Python's `==`
on these dicts is record equality. -/
structure Flight where
  id : String
  start : Int
  «end» : Int
  deriving Repr, DecidableEq

/-- A capacitated digraph (edge attribute = capacity only), as built by
`solve_airline` before handing it to `nx.maximum_flow`. -/
abbrev CapGraph := List (Node × Node × Int)

/-- The bipartite matching graph built by `solve_airline`: per flight the
arcs `S -> id_in` and `id_out -> T` of capacity 1, then for every ordered
pair with `f1 != f2` (dict inequality) and `f1.end <= f2.start` the arc
`f1_in -> f2_out` of capacity 1. -/
def airlineGraph (flights : List Flight) : CapGraph :=
  let g := flights.foldl
    (fun g f => setA (setA g "S" (f.id ++ "_in") 1) (f.id ++ "_out") "T" 1) []
  flights.foldl (fun g f1 =>
    flights.foldl (fun g f2 =>
      if f1 = f2 then g
      else if f1.«end» ≤ f2.start then setA g (f1.id ++ "_in") (f2.id ++ "_out") 1
      else g) g) g

/-- The matching graph exactly as the claim describes it: an arc
`t1_in -> t2_out` of capacity 1 exactly when `t1.end <= t2.start`, with no
restriction to distinct task records. -/
def claimAirlineGraph (flights : List Flight) : CapGraph :=
  let g := flights.foldl
    (fun g f => setA (setA g "S" (f.id ++ "_in") 1) (f.id ++ "_out") "T" 1) []
  flights.foldl (fun g f1 =>
    flights.foldl (fun g f2 =>
      if f1.«end» ≤ f2.start then setA g (f1.id ++ "_in") (f2.id ++ "_out") 1
      else g) g) g

/-- The matching graph as the amended claim describes it: an arc
`t1_in -> t2_out` of capacity 1 exactly when the two task records are
distinct and `t1.end <= t2.start`. -/
def amendedAirlineGraph (flights : List Flight) : CapGraph :=
  let g := flights.foldl
    (fun g f => setA (setA g "S" (f.id ++ "_in") 1) (f.id ++ "_out") "T" 1) []
  flights.foldl (fun g f1 =>
    flights.foldl (fun g f2 =>
      if f1 ≠ f2 ∧ f1.«end» ≤ f2.start then setA g (f1.id ++ "_in") (f2.id ++ "_out") 1
      else g) g) g

/-- Residual-capacity table for the max-flow routine: every declared arc gets
its capacity, and a zero-capacity opposite entry is created when absent. -/
def initResidual (g : CapGraph) : CapGraph :=
  g.foldl (fun r e =>
    let r1 := setA r e.1 e.2.1 e.2.2
    if (lookupA r1 e.2.1 e.1).isSome then r1 else setA r1 e.2.1 e.1 0) []

/-- Residual value with default 0. -/
def getPairD (r : CapGraph) (u v : Node) : Int :=
  (lookupA r u v).getD 0

/-- Push `b` units along `p` in the residual table: forward entries lose `b`,
opposite entries gain `b` (genuine flow cancellation). -/
def applyAug (r : CapGraph) (p : List Node) (b : Int) : CapGraph :=
  (consecPairs p).foldl (fun r uv =>
    let r1 := setA r uv.1 uv.2 (getPairD r uv.1 uv.2 - b)
    setA r1 uv.2 uv.1 (getPairD r1 uv.2 uv.1 + b)) r

/-- Arcs with positive residual capacity. -/
def posEdges (r : CapGraph) : CapGraph :=
  r.filter fun e => decide (0 < e.2.2)

/-- Shortest-augmenting-path loop over the residual table. -/
def ekLoop (s t : Node) : Nat → CapGraph → Int → Int
  | 0, _, acc => acc
  | fuel + 1, r, acc =>
    match shortestPath (posEdges r) s t with
    | .ok p =>
      let b := bottleneckOf (posEdges r) p
      if 0 < b then ekLoop s t fuel (applyAug r p b) (acc + b) else acc
    | .error _ => acc

/-- Models the external graph-library routine `nx.maximum_flow`, which the
spec treats as an external collaborator: it returns the maximum-flow value of
the capacitated digraph (computed here by Edmonds-Karp with genuine reverse
residual arcs; the fuel dominates the Edmonds-Karp augmentation bound). -/
def maximumFlow (g : CapGraph) (s t : Node) : Int :=
  ekLoop s t (g.length * g.length + 1) (initResidual g) 0

/-- `solve_airline(flights)`: `(min_crews, matched pairs)` where
`min_crews = n - max_flow`. -/
def solve_airline (flights : List Flight) : Int × Int :=
  let fv := maximumFlow (airlineGraph flights) "S" "T"
  ((flights.length : Int) - fv, fv)

/-- The three demo tasks driven through `solve_airline` by the TUI:
`(start, end)` times `(0,4)`, `(5,9)`, `(2,6)`. -/
def demoFlights : List Flight :=
  [⟨"A1", 0, 4⟩, ⟨"A2", 5, 9⟩, ⟨"B1", 2, 6⟩]

/-! ## Further definitions used by the claims -/

/-- Last declared capacity for the ordered pair `(u, v)` in an edge list
(`add_edge` on an existing key overwrites, so the last declaration wins). -/
def declCap : List (Node × Node × Int) → Node → Node → Option Int
  | [], _, _ => none
  | e :: L, u, v =>
    match declCap L u v with
    | some c => some c
    | none => if e.1 = u ∧ e.2.1 = v then some e.2.2 else none

/-- Whether the ordered pair `(u, v)` is declared anywhere in an edge list. -/
def hasDecl : List (Node × Node × Int) → Node → Node → Bool
  | [], _, _ => false
  | e :: L, u, v => if e.1 = u ∧ e.2.1 = v then true else hasDecl L u v

/-- Forward-only augmentation: identical to the augmentation loop except that
the reverse-arc decrement branch is replaced by an error, so its agreement
with `augmentEdge` states that the decrement branch is never executed. -/
def augmentEdgeFwd (g : Graph) (u v : Node) (b : Int) : Except Err Graph :=
  match lookupA g u v with
  | some d =>
    if d.flow + b ≤ d.capacity then .ok (setA g u v ⟨d.capacity, d.flow + b⟩)
    else .error .keyError
  | none => .error .keyError

/-- Forward-only augmentation along a path. -/
def augmentPathFwd : Graph → List Node → Int → Except Err Graph
  | g, u :: v :: rest, b =>
    match augmentEdgeFwd g u v b with
    | .ok g' => augmentPathFwd g' (v :: rest) b
    | .error e => .error e
  | g, _, _ => .ok g

/-- `FordFulkerson.step` with forward-only augmentation. -/
def ffStepF (s t : Node) (st : FFState) :
    Except Err ((Option (List Node) × Int) × FFState) :=
  let R := getResidualGraph st.graph
  match shortestPath R s t with
  | .error .noPath => .ok ((none, 0), st)
  | .error e => .error e
  | .ok p =>
    let b := bottleneckOf R p
    match augmentPathFwd st.graph p b with
    | .error e => .error e
    | .ok g' => .ok ((some p, b), { graph := g', flowVal := st.flowVal + b })

/-- Iterated `ffStepF`. -/
def ffRunF (s t : Node) : Nat → FFState → Except Err FFState
  | 0, st => .ok st
  | n + 1, st =>
    match ffStepF s t st with
    | .ok r => ffRunF s t n r.2
    | .error e => .error e

/-- `CapacityScaling.step` with forward-only augmentation. -/
def csStepF (s t : Node) (st : CSState) :
    Except Err ((Option (List Node) × Int × CSMsg) × CSState) :=
  if st.delta < 1 then .ok ((none, 0, .complete), st)
  else
    let R := residualAbove st.delta st.graph
    match shortestPath R s t with
    | .error .noPath =>
      .ok ((some [], 0, .reducing st.delta (st.delta / 2)),
        { st with delta := st.delta / 2 })
    | .error e => .error e
    | .ok p =>
      let b := bottleneckOf R p
      match augmentPathFwd st.graph p b with
      | .error e => .error e
      | .ok g' => .ok ((some p, b, .augmented st.delta), { st with graph := g' })

/-- Iterated `csStepF`. -/
def csRunF (s t : Node) : Nat → CSState → Except Err CSState
  | 0, st => .ok st
  | n + 1, st =>
    match csStepF s t st with
    | .ok r => csRunF s t n r.2
    | .error e => .error e

/-- The return value of the `n+1`-st `FordFulkerson.step` after `n`
successful steps from a freshly built graph. -/
def ffReport (edges : List (Node × Node × Int)) (n : Nat) :
    Except Err (Option (List Node) × Int) :=
  (ffRun "S" "T" n (ffBuild edges)).bind fun st => (ffStep "S" "T" st).map Prod.fst

/-- The return value of the `n+1`-st `CapacityScaling.step` after `n`
successful steps from a freshly built graph. -/
def csReport (edges : List (Node × Node × Int)) (n : Nat) :
    Except Err (Option (List Node) × Int × CSMsg) :=
  (csRun "S" "T" n (csBuild edges)).bind fun st => (csStep "S" "T" st).map Prod.fst

/-- The graph on which the two steppers reach different totals: the plain
stepper saturates the short paths `S-A-T` and `S-B-T` before using the wide
path `S-A-B-T`, while the capacity-scaling stepper pushes 10 units along
`S-A-B-T` during its first phase and thereby blocks both short paths; the
dead-end arcs `S-X` and `Y-T` keep source and sink inside every residual
graph so that neither run raises `NodeNotFound`. -/
def c2Edges : List (Node × Node × Int) :=
  [("S", "A", 10), ("A", "T", 1), ("A", "B", 10), ("B", "T", 10), ("S", "B", 1),
   ("S", "X", 10), ("Y", "T", 10)]

/-! ## Association-list lemmas -/

theorem lookupA_setA_self {α : Type} (g : List (Node × Node × α)) (u v : Node) (d : α) :
    lookupA (setA g u v d) u v = some d := by
  induction g with
  | nil => simp [setA, lookupA]
  | cons e g ih =>
    by_cases h : e.1 = u ∧ e.2.1 = v
    · simp [setA, lookupA, h]
    · simp [setA, lookupA, h, ih]

theorem lookupA_setA_other {α : Type} (g : List (Node × Node × α)) (u v u' v' : Node)
    (d : α) (h : ¬(u = u' ∧ v = v')) :
    lookupA (setA g u v d) u' v' = lookupA g u' v' := by
  induction g with
  | nil => simp [setA, lookupA, h]
  | cons e g ih =>
    by_cases he : e.1 = u ∧ e.2.1 = v
    · simp only [setA, if_pos he, lookupA, he.1, he.2, if_neg h]
    · simp [setA, lookupA, he, ih]

theorem lookupA_append {α : Type} (g h : List (Node × Node × α)) (u v : Node) :
    lookupA (g ++ h) u v =
      match lookupA g u v with
      | some d => some d
      | none => lookupA h u v := by
  induction g with
  | nil => simp [lookupA]
  | cons e g ih =>
    by_cases he : e.1 = u ∧ e.2.1 = v
    · simp [lookupA, he]
    · simp [lookupA, he, ih]

theorem lookupA_mem {α : Type} (g : List (Node × Node × α)) (u v : Node) (d : α)
    (h : lookupA g u v = some d) : (u, v, d) ∈ g := by
  induction g with
  | nil => simp [lookupA] at h
  | cons e g ih =>
    by_cases he : e.1 = u ∧ e.2.1 = v
    · simp only [lookupA, if_pos he] at h
      have h3 : e.2.2 = d := by injection h
      exact List.mem_cons.mpr (Or.inl (by rw [← he.1, ← he.2, ← h3]))
    · simp only [lookupA, if_neg he] at h
      exact List.mem_cons_of_mem _ (ih h)

theorem key_mem_keysA {α : Type} (g : List (Node × Node × α)) (x : Node × Node × α)
    (h : x ∈ g) : (x.1, x.2.1) ∈ keysA g :=
  List.mem_map.mpr ⟨x, h, rfl⟩

theorem lookupA_eq_none_iff {α : Type} (g : List (Node × Node × α)) (u v : Node) :
    lookupA g u v = none ↔ (u, v) ∉ keysA g := by
  induction g with
  | nil => simp [lookupA, keysA]
  | cons e g ih =>
    simp only [keysA, List.map_cons, List.mem_cons] at *
    by_cases he : e.1 = u ∧ e.2.1 = v
    · simp only [lookupA, if_pos he]
      constructor
      · intro h; exact absurd h (by simp)
      · intro h
        exact absurd (Or.inl (by rw [he.1, he.2])) h
    · simp only [lookupA, if_neg he, ih]
      constructor
      · intro h hc
        rcases hc with h1 | h2
        · exact he ⟨(congrArg Prod.fst h1).symm, (congrArg Prod.snd h1).symm⟩
        · exact h h2
      · intro h hm
        exact h (Or.inr hm)

theorem mem_lookupA {α : Type} (g : List (Node × Node × α)) (u v : Node) (d : α)
    (hn : (keysA g).Nodup) (h : (u, v, d) ∈ g) : lookupA g u v = some d := by
  induction g with
  | nil => simp at h
  | cons e g ih =>
    simp only [keysA, List.map_cons, List.nodup_cons] at hn
    rcases List.mem_cons.mp h with h1 | h2
    · subst h1
      simp [lookupA]
    · have hk : (u, v) ∈ keysA g := key_mem_keysA g (u, v, d) h2
      have he : ¬(e.1 = u ∧ e.2.1 = v) := by
        rintro ⟨h1, h2'⟩
        apply hn.1
        rw [h1, h2']
        simpa [keysA] using hk
      simp only [lookupA, if_neg he]
      exact ih (by simpa [keysA] using hn.2) h2

theorem keysA_setA_of_mem {α : Type} (g : List (Node × Node × α)) (u v : Node) (d : α)
    (h : (u, v) ∈ keysA g) : keysA (setA g u v d) = keysA g := by
  induction g with
  | nil => simp [keysA] at h
  | cons e g ih =>
    simp only [keysA, List.map_cons, List.mem_cons] at *
    by_cases he : e.1 = u ∧ e.2.1 = v
    · simp only [setA, if_pos he, keysA, List.map_cons]
      rw [he.1, he.2]
    · rcases h with h1 | h2
      · exact absurd ⟨(congrArg Prod.fst h1).symm, (congrArg Prod.snd h1).symm⟩ he
      · simp only [setA, if_neg he, List.map_cons]
        rw [ih h2]

theorem mem_setA {α : Type} (g : List (Node × Node × α)) (u v : Node) (d : α)
    (x : Node × Node × α) (h : x ∈ setA g u v d) : x ∈ g ∨ x = (u, v, d) := by
  induction g with
  | nil => simpa [setA] using h
  | cons e g ih =>
    by_cases he : e.1 = u ∧ e.2.1 = v
    · simp only [setA, if_pos he, List.mem_cons] at h
      rcases h with h1 | h2
      · exact Or.inr h1
      · exact Or.inl (List.mem_cons_of_mem _ h2)
    · simp only [setA, if_neg he, List.mem_cons] at h
      rcases h with h1 | h2
      · exact Or.inl (List.mem_cons.mpr (Or.inl h1))
      · rcases ih h2 with h3 | h4
        · exact Or.inl (List.mem_cons_of_mem _ h3)
        · exact Or.inr h4

/-! ## Min-fold lemmas -/

theorem foldl_min_le_init (l : List Int) (a : Int) : l.foldl min a ≤ a := by
  induction l generalizing a with
  | nil => simp
  | cons x xs ih => exact le_trans (ih (min a x)) (min_le_left a x)

theorem foldl_min_le_mem (l : List Int) : ∀ (a x : Int), x ∈ l → l.foldl min a ≤ x := by
  induction l with
  | nil => intro a x h; simp at h
  | cons y ys ih =>
    intro a x h
    rw [List.foldl_cons]
    rcases List.mem_cons.mp h with h1 | h2
    · subst h1
      exact le_trans (foldl_min_le_init ys (min a x)) (min_le_right a x)
    · exact ih (min a y) x h2

theorem le_foldl_min (l : List Int) : ∀ (a b : Int), b ≤ a → (∀ x ∈ l, b ≤ x) →
    b ≤ l.foldl min a := by
  induction l with
  | nil => intro a b ha _; simpa using ha
  | cons x xs ih =>
    intro a b ha h
    rw [List.foldl_cons]
    exact ih (min a x) b (le_min ha (h x (List.mem_cons_self x xs)))
      fun y hy => h y (List.mem_cons_of_mem _ hy)

theorem minList_le_of_mem (l : List Int) (x : Int) (h : x ∈ l) : minList l ≤ x := by
  cases l with
  | nil => simp at h
  | cons y ys =>
    rcases List.mem_cons.mp h with h1 | h2
    · subst h1
      exact foldl_min_le_init ys x
    · exact foldl_min_le_mem ys y x h2

theorem le_minList (l : List Int) (b : Int) (hne : l ≠ []) (h : ∀ x ∈ l, b ≤ x) :
    b ≤ minList l := by
  cases l with
  | nil => exact absurd rfl hne
  | cons y ys =>
    exact le_foldl_min ys y b (h y (List.mem_cons_self y ys))
      fun x hx => h x (List.mem_cons_of_mem _ hx)

/-! ## BFS soundness -/

/-- Arc relation of a residual graph. -/
abbrev ArcRel (R : List (Node × Node × Int)) (a b : Node) : Prop :=
  ∃ c, (a, b, c) ∈ R

/-- Invariant of a queued (reversed) BFS path: nonempty, rooted at the
source, a reversed walk along arcs of `R`, and without repeated nodes. -/
abbrev GoodRev (R : List (Node × Node × Int)) (s : Node) (p : List Node) : Prop :=
  p ≠ [] ∧ p.getLast? = some s ∧ List.Chain' (flip (ArcRel R)) p ∧ p.Nodup

theorem successors_rel (R : List (Node × Node × Int)) (u w : Node)
    (h : w ∈ successors R u) : ArcRel R u w := by
  induction R with
  | nil => simp [successors] at h
  | cons e R ih =>
    obtain ⟨a, b, c⟩ := e
    by_cases ha : a = u
    · rw [successors, if_pos ha] at h
      rcases List.mem_cons.mp h with h1 | h2
      · subst h1; subst ha
        exact ⟨c, List.mem_cons_self _ _⟩
      · obtain ⟨c', hc'⟩ := ih h2
        exact ⟨c', List.mem_cons_of_mem _ hc'⟩
    · rw [successors, if_neg ha] at h
      obtain ⟨c', hc'⟩ := ih h
      exact ⟨c', List.mem_cons_of_mem _ hc'⟩

theorem pushFresh_inv (R : List (Node × Node × Int)) (s : Node) (p : List Node) (u : Node)
    (hp : GoodRev R s p) (hphead : p.head? = some u) :
    ∀ (ws : List Node) (q : List (List Node)) (vis : List Node),
      (∀ w ∈ ws, ArcRel R u w) →
      (∀ p' ∈ q, GoodRev R s p' ∧ ∀ x ∈ p', x ∈ vis) →
      (∀ x ∈ p, x ∈ vis) →
      ∀ p' ∈ (pushFresh p ws (q, vis)).1, GoodRev R s p' ∧
        ∀ x ∈ p', x ∈ (pushFresh p ws (q, vis)).2 := by
  intro ws
  induction ws with
  | nil =>
    intro q vis _ hq _
    simpa [pushFresh] using hq
  | cons w ws ih =>
    intro q vis hws hq hpvis
    by_cases hw : w ∈ vis
    · rw [pushFresh, if_pos hw]
      exact ih q vis (fun x hx => hws x (List.mem_cons_of_mem _ hx)) hq hpvis
    · rw [pushFresh, if_neg hw]
      apply ih (q ++ [w :: p]) (w :: vis)
        (fun x hx => hws x (List.mem_cons_of_mem _ hx))
      · intro p' hp'
        rcases List.mem_append.mp hp' with h1 | h2
        · obtain ⟨hg, hv⟩ := hq p' h1
          exact ⟨hg, fun x hx => List.mem_cons_of_mem _ (hv x hx)⟩
        · have hp'' : p' = w :: p := by simpa using h2
          subst hp''
          obtain ⟨x, rest, hxr⟩ : ∃ x rest, p = x :: rest := by
            cases hpn : p with
            | nil => exact absurd hpn hp.1
            | cons x rest => exact ⟨x, rest, rfl⟩
          constructor
          · refine ⟨by simp, ?_, ?_, ?_⟩
            · rw [hxr, List.getLast?_cons_cons, ← hxr]
              exact hp.2.1
            · have hxu : x = u := by
                rw [hxr] at hphead
                simpa using hphead
            
              rw [hxr, List.chain'_cons]
              refine ⟨?_, by rw [← hxr]; exact hp.2.2.1⟩
              have : ArcRel R u w := hws w (List.mem_cons_self _ _)
              rw [hxu]
              exact this
            · rw [List.nodup_cons]
              exact ⟨fun hx => hw (hpvis w hx), hp.2.2.2⟩
          · intro x' hx'
            rcases List.mem_cons.mp hx' with h1 | h2
            · subst h1; exact List.mem_cons_self _ _
            · exact List.mem_cons_of_mem _ (hpvis x' h2)
      · intro x hx
        exact List.mem_cons_of_mem _ (hpvis x hx)

theorem bfsAux_sound (R : List (Node × Node × Int)) (s t : Node) :
    ∀ (fuel : Nat) (queue : List (List Node)) (vis : List Node),
      (∀ p ∈ queue, GoodRev R s p ∧ ∀ x ∈ p, x ∈ vis) →
      ∀ q, bfsAux R t fuel queue vis = some q →
        q.head? = some s ∧ q.getLast? = some t ∧ List.Chain' (ArcRel R) q ∧ q.Nodup := by
  intro fuel
  induction fuel with
  | zero =>
    intro queue vis _ q h
    simp [bfsAux] at h
  | succ fuel ih =>
    intro queue vis hq q h
    cases queue with
    | nil => simp [bfsAux] at h
    | cons p queue' =>
      cases hpn : p with
      | nil =>
        rw [hpn] at h
        simp [bfsAux] at h
      | cons u rest =>
        rw [hpn] at h
        by_cases hu : u = t
        · rw [bfsAux, if_pos hu] at h
          have hgood := hq p (List.mem_cons_self _ _)
          rw [hpn] at hgood
          have hqe : q = (u :: rest).reverse := by
            injection h with h'
            exact h'.symm
          subst hqe
          refine ⟨?_, ?_, ?_, ?_⟩
          · rw [List.head?_reverse]
            exact hgood.1.2.1
          · rw [List.getLast?_reverse]
            simp [hu]
          · exact List.chain'_reverse.mpr hgood.1.2.2.1
          · exact List.nodup_reverse.mpr hgood.1.2.2.2
        · rw [bfsAux, if_neg hu] at h
          apply ih _ _ ?_ q h
          have hgood := hq p (List.mem_cons_self _ _)
          rw [hpn] at hgood
          apply pushFresh_inv R s (u :: rest) u hgood.1 (by simp)
          · intro w hw
            exact successors_rel R u w hw
          · intro p' hp'
            exact hq p' (List.mem_cons_of_mem _ hp')
          · exact hgood.2

theorem shortestPath_sound (R : List (Node × Node × Int)) (s t : Node) (q : List Node)
    (h : shortestPath R s t = .ok q) :
    q.head? = some s ∧ q.getLast? = some t ∧ List.Chain' (ArcRel R) q ∧ q.Nodup := by
  unfold shortestPath at h
  by_cases hmem : s ∈ nodesOf R ∧ t ∈ nodesOf R
  · rw [if_pos hmem] at h
    by_cases hst : s = t
    · rw [if_pos hst] at h
      have hqe : q = [s] := by
        injection h with h'
        exact h'.symm
      subst hqe
      exact ⟨rfl, by simp [hst], List.chain'_singleton s, List.nodup_singleton s⟩
    · rw [if_neg hst] at h
      cases hb : bfsAux R t ((nodesOf R).length + 1) [[s]] [s] with
      | none => rw [hb] at h; exact absurd h (by simp)
      | some p =>
        rw [hb] at h
        have hqe : q = p := by
          injection h with h'
          exact h'.symm
        subst hqe
        apply bfsAux_sound R s t _ [[s]] [s] ?_ q hb
        intro p' hp'
        have hp'' : p' = [s] := by simpa using hp'
        subst hp''
        exact ⟨⟨by simp, rfl, List.chain'_singleton s, List.nodup_singleton s⟩,
          by intro x hx; simpa using hx⟩
  · rw [if_neg hmem] at h
    exact absurd h (by simp)

theorem chain'_consecPairs (r : Node → Node → Prop) :
    ∀ (q : List Node), List.Chain' r q → ∀ uv ∈ consecPairs q, r uv.1 uv.2 := by
  intro q
  induction q with
  | nil =>
    intro _ uv huv
    simp [consecPairs] at huv
  | cons u q ih =>
    cases q with
    | nil =>
      intro _ uv huv
      simp [consecPairs] at huv
    | cons v rest =>
      intro hc uv huv
      rw [List.chain'_cons] at hc
      rw [consecPairs] at huv
      rcases List.mem_cons.mp huv with h1 | h2
      · subst h1
        exact hc.1
      · exact ih hc.2 uv h2

theorem consecPairs_mem (uv : Node × Node) :
    ∀ (q : List Node), uv ∈ consecPairs q → uv.1 ∈ q ∧ uv.2 ∈ q := by
  intro q
  induction q with
  | nil =>
    intro huv
    simp [consecPairs] at huv
  | cons u q ih =>
    cases q with
    | nil =>
      intro huv
      simp [consecPairs] at huv
    | cons v rest =>
      intro huv
      rw [consecPairs] at huv
      rcases List.mem_cons.mp huv with h1 | h2
      · subst h1
        exact ⟨List.mem_cons_self _ _, List.mem_cons_of_mem _ (List.mem_cons_self _ _)⟩
      · obtain ⟨h3, h4⟩ := ih h2
        exact ⟨List.mem_cons_of_mem _ h3, List.mem_cons_of_mem _ h4⟩

/-! ## Net-flow effect of augmentation -/

theorem outflow_setA (g : Graph) (u v : Node) (d d' : EdgeData) (w : Node)
    (h : lookupA g u v = some d) :
    outflow (setA g u v d') w =
      outflow g w + (if u = w then d'.flow - d.flow else 0) := by
  induction g with
  | nil => simp [lookupA] at h
  | cons e g ih =>
    obtain ⟨a, b, ed⟩ := e
    by_cases he : a = u ∧ b = v
    · have hd : ed = d := by
        simp only [lookupA, if_pos (show (a, b, ed).1 = u ∧ (a, b, ed).2.1 = v from he)] at h
        injection h
      subst hd
      simp only [setA, if_pos (show (a, b, ed).1 = u ∧ (a, b, ed).2.1 = v from he), outflow]
      rw [← he.1]
      split_ifs <;> omega
    · have h' : lookupA g u v = some d := by
        simpa only [lookupA, if_neg (show ¬((a, b, ed).1 = u ∧ (a, b, ed).2.1 = v) from he)]
          using h
      simp only [setA, if_neg (show ¬((a, b, ed).1 = u ∧ (a, b, ed).2.1 = v) from he), outflow]
      rw [ih h']
      omega

theorem inflow_setA (g : Graph) (u v : Node) (d d' : EdgeData) (w : Node)
    (h : lookupA g u v = some d) :
    inflow (setA g u v d') w =
      inflow g w + (if v = w then d'.flow - d.flow else 0) := by
  induction g with
  | nil => simp [lookupA] at h
  | cons e g ih =>
    obtain ⟨a, b, ed⟩ := e
    by_cases he : a = u ∧ b = v
    · have hd : ed = d := by
        simp only [lookupA, if_pos (show (a, b, ed).1 = u ∧ (a, b, ed).2.1 = v from he)] at h
        injection h
      subst hd
      simp only [setA, if_pos (show (a, b, ed).1 = u ∧ (a, b, ed).2.1 = v from he), inflow]
      rw [← he.2]
      split_ifs <;> omega
    · have h' : lookupA g u v = some d := by
        simpa only [lookupA, if_neg (show ¬((a, b, ed).1 = u ∧ (a, b, ed).2.1 = v) from he)]
          using h
      simp only [setA, if_neg (show ¬((a, b, ed).1 = u ∧ (a, b, ed).2.1 = v) from he), inflow]
      rw [ih h']
      omega

theorem augmentEdge_net (g g' : Graph) (u v : Node) (b : Int) (w : Node)
    (h : augmentEdge g u v b = .ok g') :
    outflow g' w - inflow g' w =
      (outflow g w - inflow g w) + (if u = w then b else 0) - (if v = w then b else 0) := by
  unfold augmentEdge at h
  split at h
  · rename_i d heq
    split at h
    · rename_i hc
      have hg : g' = setA g u v ⟨d.capacity, d.flow + b⟩ := by
        injection h with h'
        exact h'.symm
      subst hg
      rw [outflow_setA g u v d _ w heq, inflow_setA g u v d _ w heq]
      simp only
      split_ifs <;> omega
    · split at h
      · rename_i d' heq'
        have hg : g' = setA g v u ⟨d'.capacity, d'.flow - b⟩ := by
          injection h with h'
          exact h'.symm
        subst hg
        rw [outflow_setA g v u d' _ w heq', inflow_setA g v u d' _ w heq']
        simp only
        split_ifs <;> omega
      · exact absurd h (by simp)
  · split at h
    · rename_i d' heq'
      have hg : g' = setA g v u ⟨d'.capacity, d'.flow - b⟩ := by
        injection h with h'
        exact h'.symm
      subst hg
      rw [outflow_setA g v u d' _ w heq', inflow_setA g v u d' _ w heq']
      simp only
      split_ifs <;> omega
    · exact absurd h (by simp)

theorem augmentPath_net (b : Int) (w : Node) :
    ∀ (p : List Node) (g g' : Graph), augmentPath g p b = .ok g' →
      outflow g' w - inflow g' w = (outflow g w - inflow g w)
        + (if p.head? = some w then b else 0) - (if p.getLast? = some w then b else 0) := by
  intro p
  induction p with
  | nil =>
    intro g g' h
    simp only [augmentPath] at h
    have hg : g' = g := by
      injection h with h'
      exact h'.symm
    subst hg
    simp
  | cons u p ih =>
    cases p with
    | nil =>
      intro g g' h
      simp only [augmentPath] at h
      have hg : g' = g := by
        injection h with h'
        exact h'.symm
      subst hg
      simp
    | cons v rest =>
      intro g g' h
      simp only [augmentPath] at h
      split at h
      · rename_i g1 heq
        have h1 := augmentEdge_net g g1 u v b w heq
        have h2 := ih g1 g' h
        rw [h2, h1]
        simp only [List.head?_cons, List.getLast?_cons_cons, Option.some.injEq]
        split_ifs <;> omega
      · exact absurd h (by simp)

/-! ## Build-graph invariants -/

theorem keysA_cons {α : Type} (e : Node × Node × α) (l : List (Node × Node × α)) :
    keysA (e :: l) = (e.1, e.2.1) :: keysA l := rfl

theorem keysA_append {α : Type} (l1 l2 : List (Node × Node × α)) :
    keysA (l1 ++ l2) = keysA l1 ++ keysA l2 := by
  simp [keysA]

theorem keysA_setA_of_not_mem {α : Type} (g : List (Node × Node × α)) (u v : Node) (d : α)
    (h : (u, v) ∉ keysA g) : keysA (setA g u v d) = keysA g ++ [(u, v)] := by
  induction g with
  | nil => simp [setA, keysA]
  | cons e g ih =>
    rw [keysA_cons, List.mem_cons] at h
    push_neg at h
    have he : ¬(e.1 = u ∧ e.2.1 = v) := by
      rintro ⟨h1, h2⟩
      exact h.1 (by rw [h1, h2])
    rw [setA, if_neg he, keysA_cons, keysA_cons, ih h.2, List.cons_append]

theorem not_hasEdge_lookup_none (g : Graph) (u v : Node)
    (h : ¬hasEdge g u v = true) : lookupA g u v = none := by
  rw [← Option.not_isSome_iff_eq_none]
  simpa [hasEdge] using h

theorem buildStep_keys_nodup (g : Graph) (e : Node × Node × Int)
    (h : (keysA g).Nodup) : (keysA (buildStep g e)).Nodup := by
  unfold buildStep
  have hset : (keysA (setA g e.1 e.2.1 ⟨e.2.2, 0⟩)).Nodup := by
    by_cases h1 : (e.1, e.2.1) ∈ keysA g
    · rw [keysA_setA_of_mem g e.1 e.2.1 _ h1]
      exact h
    · rw [keysA_setA_of_not_mem g e.1 e.2.1 _ h1, List.nodup_append]
      refine ⟨h, by simp, ?_⟩
      intro x hx
      simp only [List.mem_singleton]
      intro hxe
      subst hxe
      exact h1 hx
  by_cases h2 : hasEdge (setA g e.1 e.2.1 ⟨e.2.2, 0⟩) e.2.1 e.1
  · simp only [if_pos h2]
    exact hset
  · simp only [if_neg h2]
    have h3 : (e.2.1, e.1) ∉ keysA (setA g e.1 e.2.1 ⟨e.2.2, 0⟩) := by
      rw [← lookupA_eq_none_iff]
      exact not_hasEdge_lookup_none _ _ _ h2
    rw [keysA_append, List.nodup_append]
    refine ⟨hset, by simp [keysA], ?_⟩
    intro x hx
    simp only [keysA, List.map_cons, List.map_nil, List.mem_singleton]
    intro hxe
    subst hxe
    exact h3 hx

theorem buildGraph_keys_nodup (edges : List (Node × Node × Int)) :
    (keysA (buildGraph edges)).Nodup := by
  unfold buildGraph
  have h : ∀ (L : List (Node × Node × Int)) (g : Graph), (keysA g).Nodup →
      (keysA (L.foldl buildStep g)).Nodup := by
    intro L
    induction L with
    | nil => intro g hg; simpa using hg
    | cons e L ih =>
      intro g hg
      exact ih (buildStep g e) (buildStep_keys_nodup g e hg)
  exact h edges [] (by simp [keysA])

theorem buildStep_flows_zero (g : Graph) (e : Node × Node × Int)
    (h : ∀ x ∈ g, x.2.2.flow = 0) : ∀ x ∈ buildStep g e, x.2.2.flow = 0 := by
  unfold buildStep
  intro x hx
  have hset : ∀ y ∈ setA g e.1 e.2.1 ⟨e.2.2, 0⟩, y.2.2.flow = 0 := by
    intro y hy
    rcases mem_setA g e.1 e.2.1 _ y hy with h1 | h2
    · exact h y h1
    · subst h2
      rfl
  by_cases h2 : hasEdge (setA g e.1 e.2.1 ⟨e.2.2, 0⟩) e.2.1 e.1
  · rw [if_pos h2] at hx
    exact hset x hx
  · rw [if_neg h2] at hx
    rcases List.mem_append.mp hx with h3 | h4
    · exact hset x h3
    · have hxe : x = (e.2.1, e.1, ⟨0, 0⟩) := by simpa using h4
      subst hxe
      rfl

theorem buildGraph_flows_zero (edges : List (Node × Node × Int)) :
    ∀ x ∈ buildGraph edges, x.2.2.flow = 0 := by
  unfold buildGraph
  have h : ∀ (L : List (Node × Node × Int)) (g : Graph), (∀ x ∈ g, x.2.2.flow = 0) →
      ∀ x ∈ L.foldl buildStep g, x.2.2.flow = 0 := by
    intro L
    induction L with
    | nil => intro g hg; simpa using hg
    | cons e L ih =>
      intro g hg
      exact ih (buildStep g e) (buildStep_flows_zero g e hg)
  exact h edges [] (by simp)

theorem outflow_eq_zero (g : Graph) (h : ∀ x ∈ g, x.2.2.flow = 0) (w : Node) :
    outflow g w = 0 := by
  induction g with
  | nil => rfl
  | cons e g ih =>
    obtain ⟨a, b, d⟩ := e
    rw [outflow]
    rw [ih fun x hx => h x (List.mem_cons_of_mem _ hx)]
    have hd : d.flow = 0 := h (a, b, d) (List.mem_cons_self _ _)
    rw [hd]
    split_ifs <;> rfl

theorem inflow_eq_zero (g : Graph) (h : ∀ x ∈ g, x.2.2.flow = 0) (w : Node) :
    inflow g w = 0 := by
  induction g with
  | nil => rfl
  | cons e g ih =>
    obtain ⟨a, b, d⟩ := e
    rw [inflow]
    rw [ih fun x hx => h x (List.mem_cons_of_mem _ hx)]
    have hd : d.flow = 0 := h (a, b, d) (List.mem_cons_self _ _)
    rw [hd]
    split_ifs <;> rfl

/-! ## Step inversion -/

theorem ffStep_cases (s t : Node) (st st' : FFState) (r : Option (List Node) × Int)
    (h : ffStep s t st = .ok (r, st')) :
    (shortestPath (getResidualGraph st.graph) s t = .error .noPath ∧
      r = (none, 0) ∧ st' = st) ∨
    (∃ p, shortestPath (getResidualGraph st.graph) s t = .ok p ∧
      augmentPath st.graph p (bottleneckOf (getResidualGraph st.graph) p) = .ok st'.graph ∧
      r = (some p, bottleneckOf (getResidualGraph st.graph) p) ∧
      st'.flowVal = st.flowVal + bottleneckOf (getResidualGraph st.graph) p) := by
  simp only [ffStep] at h
  split at h
  · rename_i heq
    left
    have h1 : r = (none, 0) ∧ st' = st := by
      injection h with h'
      exact ⟨(congrArg Prod.fst h').symm, (congrArg Prod.snd h').symm⟩
    exact ⟨heq, h1⟩
  · exact absurd h (by simp)
  · rename_i p heq
    right
    refine ⟨p, heq, ?_⟩
    split at h
    · exact absurd h (by simp)
    · rename_i g' haug
      have h1 : r = (some p, bottleneckOf (getResidualGraph st.graph) p) ∧
          st' = ⟨g', st.flowVal + bottleneckOf (getResidualGraph st.graph) p⟩ := by
        injection h with h'
        exact ⟨(congrArg Prod.fst h').symm, (congrArg Prod.snd h').symm⟩
      obtain ⟨hr, hst'⟩ := h1
      subst hst'
      exact ⟨haug, hr, rfl⟩

theorem csStep_cases (s t : Node) (st st' : CSState) (r : Option (List Node) × Int × CSMsg)
    (h : csStep s t st = .ok (r, st')) :
    (st.delta < 1 ∧ r = (none, 0, .complete) ∧ st' = st) ∨
    (¬st.delta < 1 ∧ shortestPath (residualAbove st.delta st.graph) s t = .error .noPath ∧
      r = (some [], 0, .reducing st.delta (st.delta / 2)) ∧
      st' = { st with delta := st.delta / 2 }) ∨
    (¬st.delta < 1 ∧ ∃ p, shortestPath (residualAbove st.delta st.graph) s t = .ok p ∧
      augmentPath st.graph p (bottleneckOf (residualAbove st.delta st.graph) p) = .ok st'.graph ∧
      r = (some p, bottleneckOf (residualAbove st.delta st.graph) p, .augmented st.delta) ∧
      st'.delta = st.delta) := by
  simp only [csStep] at h
  split at h
  · rename_i hδ
    left
    have h1 : r = (none, 0, .complete) ∧ st' = st := by
      injection h with h'
      exact ⟨(congrArg Prod.fst h').symm, (congrArg Prod.snd h').symm⟩
    exact ⟨hδ, h1⟩
  · rename_i hδ
    split at h
    · rename_i heq
      right; left
      have h1 : r = (some [], 0, .reducing st.delta (st.delta / 2)) ∧
          st' = { st with delta := st.delta / 2 } := by
        injection h with h'
        exact ⟨(congrArg Prod.fst h').symm, (congrArg Prod.snd h').symm⟩
      exact ⟨hδ, heq, h1.1, h1.2⟩
    · exact absurd h (by simp)
    · rename_i p heq
      right; right
      refine ⟨hδ, p, heq, ?_⟩
      split at h
      · exact absurd h (by simp)
      · rename_i g' haug
        have h1 : r = (some p, bottleneckOf (residualAbove st.delta st.graph) p,
              .augmented st.delta) ∧ st' = { st with graph := g' } := by
          injection h with h'
          exact ⟨(congrArg Prod.fst h').symm, (congrArg Prod.snd h').symm⟩
        obtain ⟨hr, hst'⟩ := h1
        subst hst'
        exact ⟨haug, hr, rfl⟩

/-! ## Flow conservation (claim C3) -/

theorem ffStep_conserved (s t : Node) (hst : s ≠ t) (st st' : FFState)
    (r : Option (List Node) × Int) (h : ffStep s t st = .ok (r, st'))
    (h1 : ∀ w, w ≠ s → w ≠ t → inflow st.graph w = outflow st.graph w)
    (h2 : outflow st.graph s - inflow st.graph s = st.flowVal)
    (h3 : inflow st.graph t - outflow st.graph t = st.flowVal) :
    (∀ w, w ≠ s → w ≠ t → inflow st'.graph w = outflow st'.graph w) ∧
    outflow st'.graph s - inflow st'.graph s = st'.flowVal ∧
    inflow st'.graph t - outflow st'.graph t = st'.flowVal := by
  rcases ffStep_cases s t st st' r h with ⟨_, _, hstst⟩ | ⟨p, hsp, haug, _, hfv⟩
  · subst hstst
    exact ⟨h1, h2, h3⟩
  · obtain ⟨hhead, hlast, _, _⟩ := shortestPath_sound _ s t p hsp
    have hnet := fun w => augmentPath_net (bottleneckOf (getResidualGraph st.graph) p) w
      p st.graph st'.graph haug
    refine ⟨?_, ?_, ?_⟩
    · intro w hws hwt
      have hw := hnet w
      rw [hhead, hlast] at hw
      rw [if_neg (by simpa using fun hh : s = w => hws hh.symm),
        if_neg (by simpa using fun hh : t = w => hwt hh.symm)] at hw
      have hw0 : inflow st.graph w = outflow st.graph w := h1 w hws hwt
      omega
    · have hw := hnet s
      rw [hhead, hlast] at hw
      rw [if_pos rfl, if_neg (by simpa using fun hh : t = s => hst hh.symm)] at hw
      omega
    · have hw := hnet t
      rw [hhead, hlast] at hw
      rw [if_neg (by simpa using hst), if_pos rfl] at hw
      omega

theorem ffRun_conserved (s t : Node) (hst : s ≠ t) :
    ∀ (n : Nat) (st st' : FFState), ffRun s t n st = .ok st' →
      ((∀ w, w ≠ s → w ≠ t → inflow st.graph w = outflow st.graph w) ∧
        outflow st.graph s - inflow st.graph s = st.flowVal ∧
        inflow st.graph t - outflow st.graph t = st.flowVal) →
      (∀ w, w ≠ s → w ≠ t → inflow st'.graph w = outflow st'.graph w) ∧
      outflow st'.graph s - inflow st'.graph s = st'.flowVal ∧
      inflow st'.graph t - outflow st'.graph t = st'.flowVal := by
  intro n
  induction n with
  | zero =>
    intro st st' h hc
    have hss : st' = st := by
      simp only [ffRun] at h
      injection h with h'
      exact h'.symm
    subst hss
    exact hc
  | succ n ih =>
    intro st st' h hc
    simp only [ffRun] at h
    split at h
    · rename_i r heq
      exact ih r.2 st' h
        (ffStep_conserved s t hst st r.2 r.1 heq hc.1 hc.2.1 hc.2.2)
    · exact absurd h (by simp)

/-- C3: after every completed `step()` of the plain stepper on a built graph,
net inflow equals net outflow at every node other than source and sink, and
the net flow out of the source equals the net flow into the sink, both equal
to the running total `flow_val`. -/
theorem c3_flow_conservation (edges : List (Node × Node × Int)) (s t : Node) (hst : s ≠ t)
    (n : Nat) (st : FFState) (h : ffRun s t n (ffBuild edges) = .ok st) :
    (∀ w, w ≠ s → w ≠ t → inflow st.graph w = outflow st.graph w) ∧
    outflow st.graph s - inflow st.graph s = st.flowVal ∧
    inflow st.graph t - outflow st.graph t = st.flowVal := by
  apply ffRun_conserved s t hst n (ffBuild edges) st h
  have hz := buildGraph_flows_zero edges
  simp only [ffBuild]
  refine ⟨?_, ?_, ?_⟩
  · intro w _ _
    rw [inflow_eq_zero _ hz w, outflow_eq_zero _ hz w]
  · rw [inflow_eq_zero _ hz s, outflow_eq_zero _ hz s]
    rfl
  · rw [inflow_eq_zero _ hz t, outflow_eq_zero _ hz t]
    rfl

/-- Witness for C3 at a concrete input: one step on the single-edge graph
`S -> T` of capacity 3 saturates it and conserves flow. -/
theorem c3_flow_conservation_witness :
    outflow [("S", "T", EdgeData.mk 3 3), ("T", "S", EdgeData.mk 0 0)] "S" -
        inflow [("S", "T", EdgeData.mk 3 3), ("T", "S", EdgeData.mk 0 0)] "S" = 3 ∧
    inflow [("S", "T", EdgeData.mk 3 3), ("T", "S", EdgeData.mk 0 0)] "T" -
        outflow [("S", "T", EdgeData.mk 3 3), ("T", "S", EdgeData.mk 0 0)] "T" = 3 :=
  (c3_flow_conservation [("S", "T", 3)] "S" "T" (by decide) 1
    ⟨[("S", "T", ⟨3, 3⟩), ("T", "S", ⟨0, 0⟩)], 3⟩ rfl).2

/-! ## Terminal idempotence (claim C6) -/

/-- C6: once the plain stepper has returned its terminal signal `(None, 0)`,
or the scaling stepper is complete with `delta < 1`, every subsequent
`step()` returns the same terminal signal and leaves the whole engine state
(arc flows, running total, delta) unchanged. -/
theorem c6_terminal_idempotent :
    (∀ (s t : Node) (st st' : FFState) (r : Option (List Node) × Int),
      ffStep s t st = .ok (r, st') → r.1 = none →
      st' = st ∧ ffStep s t st = .ok ((none, 0), st) ∧ ∀ n, ffRun s t n st = .ok st) ∧
    (∀ (s t : Node) (st : CSState), st.delta < 1 →
      csStep s t st = .ok ((none, 0, .complete), st) ∧ ∀ n, csRun s t n st = .ok st) := by
  constructor
  · intro s t st st' r h hr
    rcases ffStep_cases s t st st' r h with ⟨heq, hr2, hstst⟩ | ⟨p, hsp, _, hr2, _⟩
    · have hstep : ffStep s t st = .ok ((none, 0), st) := by
        simp only [ffStep]
        rw [heq]
      refine ⟨hstst, hstep, ?_⟩
      intro n
      induction n with
      | zero => rfl
      | succ n ih =>
        simp only [ffRun]
        rw [hstep]
        exact ih
    · rw [hr2] at hr
      simp at hr
  · intro s t st hδ
    have hstep : csStep s t st = .ok ((none, 0, .complete), st) := by
      simp only [csStep, if_pos hδ]
    refine ⟨hstep, ?_⟩
    intro n
    induction n with
    | zero => rfl
    | succ n ih =>
      simp only [csRun]
      rw [hstep]
      exact ih

/-- Witness for C6: the disconnected graph `S -> A`, `B -> T` makes the plain
stepper terminal at once, and a scaling state with `delta = 0` is complete;
repeated stepping is a no-op on both. -/
theorem c6_terminal_idempotent_witness :
    ffRun "S" "T" 5 (ffBuild [("S", "A", 1), ("B", "T", 1)]) =
      .ok (ffBuild [("S", "A", 1), ("B", "T", 1)]) ∧
    csRun "S" "T" 5 ⟨buildGraph [("S", "A", 1)], 0⟩ =
      .ok ⟨buildGraph [("S", "A", 1)], 0⟩ :=
  ⟨((c6_terminal_idempotent.1 "S" "T" (ffBuild [("S", "A", 1), ("B", "T", 1)])
      (ffBuild [("S", "A", 1), ("B", "T", 1)]) ((none, 0)) rfl rfl).2.2) 5,
    ((c6_terminal_idempotent.2 "S" "T" ⟨buildGraph [("S", "A", 1)], 0⟩ (by decide)).2) 5⟩

/-! ## Scaling no-path transition (claim C5) -/

/-- C5 counterexample: on the disconnected graph `S -> A`, `B -> T` (both
capacity 1, so the initial delta is 1) the very first `step()` finds no path
and the new delta `0` is below 1; the claim says this call returns the
terminal signal, but the code returns the empty-path reducing message
`(path = [], 0, "No path at Delta=1. Reducing Delta to 0")`, which differs
from the terminal signal `(None, 0, "Algorithm Complete")`. -/
theorem c5_counterexample :
    csStep "S" "T" (csBuild [("S", "A", 1), ("B", "T", 1)]) =
      .ok ((some [], 0, .reducing 1 0),
        ⟨buildGraph [("S", "A", 1), ("B", "T", 1)], 0⟩) ∧
    ((some [] : Option (List Node)), (0 : Int), CSMsg.reducing 1 0) ≠
      ((none : Option (List Node)), (0 : Int), CSMsg.complete) :=
  ⟨rfl, by decide⟩

/-- C5 amended: whenever `step()` finds no path at threshold `delta ≥ 1`, it
halves delta and returns the empty path, bottleneck 0 and the reducing
message — regardless of whether the new delta is below 1; the terminal signal
is only produced by the following call (shown for the `delta = 1` case, where
the new delta `0` drops below 1). -/
theorem c5_amended (s t : Node) (st : CSState) (hδ : 1 ≤ st.delta)
    (hnp : shortestPath (residualAbove st.delta st.graph) s t = .error .noPath) :
    csStep s t st = .ok ((some [], 0, .reducing st.delta (st.delta / 2)),
      { st with delta := st.delta / 2 }) ∧
    (st.delta = 1 → csStep s t { st with delta := st.delta / 2 } =
      .ok ((none, 0, .complete), { st with delta := st.delta / 2 })) := by
  constructor
  · simp only [csStep, if_neg (by omega : ¬st.delta < 1)]
    rw [hnp]
  · intro h1
    have h0 : st.delta / 2 = 0 := by
      rw [h1]
      decide
    rw [h0]
    rfl

/-- Witness for C5 at a concrete input: the disconnected two-arc graph with
initial delta 1. -/
theorem c5_amended_witness :
    csStep "S" "T" ⟨buildGraph [("S", "A", 1), ("B", "T", 1)], 1⟩ =
      .ok ((some [], 0, .reducing 1 0),
        ⟨buildGraph [("S", "A", 1), ("B", "T", 1)], 0⟩) ∧
    csStep "S" "T" ⟨buildGraph [("S", "A", 1), ("B", "T", 1)], 0⟩ =
      .ok ((none, 0, .complete), ⟨buildGraph [("S", "A", 1), ("B", "T", 1)], 0⟩) :=
  ⟨(c5_amended "S" "T" ⟨buildGraph [("S", "A", 1), ("B", "T", 1)], 1⟩
      (by decide) rfl).1,
    (c5_amended "S" "T" ⟨buildGraph [("S", "A", 1), ("B", "T", 1)], 1⟩
      (by decide) rfl).2 rfl⟩

/-! ## Uncaught NodeNotFound on terminal graphs (claim C1) -/

/-- C1: contrary to the claim, `step()` raises rather than returning the
terminal signal whenever the source (or sink) is incident to no
positive-residual arc: `nx.shortest_path` then raises `NodeNotFound`, which
the `except nx.NetworkXNoPath` handler does not catch.  Shown here on the
single zero-capacity edge `S -> T` (no augmenting path exists and the source
has no positive-residual outgoing arc) for both steppers, and on the
capacity-1 edge `S -> T` after its one augmenting step. -/
theorem c1_step_raises_instead_of_terminal :
    ffStep "S" "T" (ffBuild [("S", "T", 0)]) = .error .nodeNotFound ∧
    csStep "S" "T" (csBuild [("S", "T", 0)]) = .error .nodeNotFound ∧
    (ffRun "S" "T" 1 (ffBuild [("S", "T", 1)])).map (fun st => ffStep "S" "T" st) =
      .ok (.error .nodeNotFound) :=
  ⟨rfl, rfl, rfl⟩

/-! ## The two steppers reach different totals (claim C2) -/

/-- C2: on `c2Edges` the plain stepper terminates (its 4th call reports the
no-path terminal signal) with total flow 11 = `flow_val` = net outflow at the
source, while the capacity-scaling stepper terminates (its 6th call reports
`Algorithm Complete`, delta having fallen to 0) with net outflow 10 at the
source; the two totals differ, contradicting the claim. -/
theorem c2_totals_differ :
    ffReport c2Edges 3 = .ok (none, 0) ∧
    (ffRun "S" "T" 4 (ffBuild c2Edges)).map
      (fun st => (st.flowVal, outflow st.graph "S" - inflow st.graph "S")) =
      .ok (11, 11) ∧
    csReport c2Edges 5 = .ok (none, 0, .complete) ∧
    (csRun "S" "T" 6 (csBuild c2Edges)).map
      (fun st => (st.delta, outflow st.graph "S" - inflow st.graph "S")) =
      .ok (0, 10) ∧
    (11 : Int) ≠ 10 := by
  refine ⟨rfl, rfl, rfl, rfl, by decide⟩

/-! ## Initial scaling threshold (claim C7) -/

theorem deltaLoop_spec (m : Int) :
    ∀ (fuel : Nat) (d : Int), 1 ≤ d → d ≤ m → m < 2 ^ fuel * d →
      deltaLoop m fuel d ≤ m ∧ m < 2 * deltaLoop m fuel d ∧
      (∀ k : Nat, d = 2 ^ k → ∃ k' : Nat, deltaLoop m fuel d = 2 ^ k') := by
  intro fuel
  induction fuel with
  | zero =>
    intro d h1 h2 h3
    exfalso
    rw [pow_zero, one_mul] at h3
    omega
  | succ fuel ih =>
    intro d h1 h2 h3
    by_cases hc : 2 * d ≤ m
    · have h3' : m < 2 ^ fuel * (2 * d) := by
        rw [pow_succ] at h3
        have ha : 2 ^ fuel * 2 * d = 2 ^ fuel * (2 * d) := by ring
        linarith [ha]
      have hrec := ih (2 * d) (by omega) hc h3'
      simp only [deltaLoop, if_pos hc]
      refine ⟨hrec.1, hrec.2.1, ?_⟩
      intro k hk
      exact hrec.2.2 (k + 1) (by rw [hk, pow_succ]; ring)
    · simp only [deltaLoop, if_neg hc]
      exact ⟨h2, by omega, fun k hk => ⟨k, hk⟩⟩

theorem maxCapOf_nonneg (edges : List (Node × Node × Int)) : 0 ≤ maxCapOf edges := by
  unfold maxCapOf
  have h : ∀ (l : List (Node × Node × Int)) (a : Int),
      a ≤ l.foldl (fun m e => max m e.2.2) a := by
    intro l
    induction l with
    | nil => intro a; simp
    | cons x xs ih =>
      intro a
      rw [List.foldl_cons]
      exact le_trans (le_max_left a x.2.2) (ih (max a x.2.2))
  exact h edges 0

/-- C7 counterexample: with a single declared capacity of 0 the threshold is
initialised to 1, which is **not** a power of two less than or equal to the
maximum declared capacity (no power of two is ≤ 0). -/
theorem c7_counterexample :
    (csBuild [("S", "T", 0)]).delta = 1 ∧ maxCapOf [("S", "T", 0)] = 0 ∧
    ¬((csBuild [("S", "T", 0)]).delta ≤ maxCapOf [("S", "T", 0)]) :=
  ⟨rfl, rfl, by decide⟩

/-- C7 amended: after `build_graph` the threshold delta is the largest power
of two that is ≤ `max(max_cap, 1)`; in particular delta is 1 (not a value
≤ 0) when the maximum declared capacity is 0. -/
theorem c7_amended (edges : List (Node × Node × Int)) :
    ∃ k : Nat, (csBuild edges).delta = 2 ^ k ∧
      (csBuild edges).delta ≤ max (maxCapOf edges) 1 ∧
      ∀ j : Nat, (2 : Int) ^ j ≤ max (maxCapOf edges) 1 →
        (2 : Int) ^ j ≤ (csBuild edges).delta := by
  have hm : 0 ≤ maxCapOf edges := maxCapOf_nonneg edges
  have hδ : (csBuild edges).delta = deltaLoop (maxCapOf edges) (maxCapOf edges).toNat 1 :=
    rfl
  by_cases h1 : maxCapOf edges ≤ 0
  · have hm0 : maxCapOf edges = 0 := le_antisymm h1 hm
    have hd : (csBuild edges).delta = 1 := by
      rw [hδ, hm0]
      rfl
    rw [hd, hm0]
    refine ⟨0, by norm_num, by norm_num, ?_⟩
    intro j hj
    have hj' : (2 : Int) ^ j ≤ 1 := by simpa using hj
    have hj0 : j = 0 := by
      by_contra hne
      have hj1 : 1 ≤ j := Nat.one_le_iff_ne_zero.mpr hne
      have h2 : (2 : Int) ^ 1 ≤ 2 ^ j := pow_le_pow_right₀ (by norm_num) hj1
      rw [pow_one] at h2
      omega
    rw [hj0]
    norm_num
  · push_neg at h1
    have h1' : 1 ≤ maxCapOf edges := h1
    have hfuel : maxCapOf edges < 2 ^ (maxCapOf edges).toNat * 1 := by
      rw [mul_one]
      calc maxCapOf edges = ((maxCapOf edges).toNat : Int) :=
            (Int.toNat_of_nonneg hm).symm
        _ < ((2 ^ (maxCapOf edges).toNat : Nat) : Int) := by
            exact_mod_cast Nat.lt_two_pow (maxCapOf edges).toNat
        _ = (2 : Int) ^ (maxCapOf edges).toNat := by push_cast; ring
    have hspec := deltaLoop_spec (maxCapOf edges) (maxCapOf edges).toNat 1
      (le_refl 1) h1' hfuel
    obtain ⟨k', hk'⟩ := hspec.2.2 0 (by norm_num)
    have hmax : max (maxCapOf edges) 1 = maxCapOf edges := max_eq_left h1'
    refine ⟨k', by rw [hδ, hk'], by rw [hδ, hmax]; exact hspec.1, ?_⟩
    intro j hj
    rw [hδ, hk']
    rw [hmax] at hj
    have h2 : (2 : Int) ^ j < 2 ^ (k' + 1) := by
      rw [pow_succ]
      have h3 := hspec.2.1
      rw [hk'] at h3
      linarith
    have hjk : j < k' + 1 := by
      by_contra hge
      push_neg at hge
      exact absurd h2 (not_lt.mpr (pow_le_pow_right₀ (by norm_num) hge))
    exact pow_le_pow_right₀ (by norm_num) (Nat.lt_succ_iff.mp hjk)

/-- Witness for C7 at a concrete input: with maximum capacity 5 the threshold
is 4. -/
theorem c7_amended_witness :
    ∃ k : Nat, (csBuild [("S", "T", 5)]).delta = 2 ^ k ∧
      (csBuild [("S", "T", 5)]).delta ≤ max (maxCapOf [("S", "T", 5)]) 1 ∧
      ∀ j : Nat, (2 : Int) ^ j ≤ max (maxCapOf [("S", "T", 5)]) 1 →
        (2 : Int) ^ j ≤ (csBuild [("S", "T", 5)]).delta :=
  c7_amended [("S", "T", 5)]

/-! ## Build-graph lookup characterization (claims C8, C9) -/

theorem lookup_buildStep_key (g : Graph) (e : Node × Node × Int) (u v : Node)
    (hk : e.1 = u ∧ e.2.1 = v) :
    lookupA (buildStep g e) u v = some ⟨e.2.2, 0⟩ := by
  obtain ⟨a, bn, c⟩ := e
  obtain ⟨ha, hb⟩ := hk
  dsimp only at ha hb
  subst ha
  subst hb
  unfold buildStep
  dsimp only
  have h1 : lookupA (setA g a bn ⟨c, 0⟩) a bn = some ⟨c, 0⟩ :=
    lookupA_setA_self g a bn _
  by_cases h2 : hasEdge (setA g a bn ⟨c, 0⟩) bn a
  · rw [if_pos h2]
    exact h1
  · rw [if_neg h2, lookupA_append, h1]

theorem lookup_buildStep_rev (g : Graph) (e : Node × Node × Int) (u v : Node)
    (hrev : e.1 = v ∧ e.2.1 = u) (hk : ¬(e.1 = u ∧ e.2.1 = v)) :
    lookupA (buildStep g e) u v =
      match lookupA g u v with
      | some d => some d
      | none => some ⟨0, 0⟩ := by
  obtain ⟨a, bn, c⟩ := e
  obtain ⟨ha, hb⟩ := hrev
  dsimp only at ha hb hk
  subst ha
  subst hb
  unfold buildStep
  dsimp only
  have h1 : lookupA (setA g a bn ⟨c, 0⟩) bn a = lookupA g bn a :=
    lookupA_setA_other g a bn bn a _ (by rintro ⟨h1', h2'⟩; exact hk ⟨h1', h2'⟩)
  cases hl : lookupA g bn a with
  | some d =>
    have h2 : hasEdge (setA g a bn ⟨c, 0⟩) bn a = true := by
      rw [hasEdge, h1, hl]
      rfl
    rw [if_pos h2, h1, hl]
  | none =>
    have h2 : ¬hasEdge (setA g a bn ⟨c, 0⟩) bn a = true := by
      rw [hasEdge, h1, hl]
      simp
    rw [if_neg h2, lookupA_append, h1, hl]
    show lookupA [(bn, a, (⟨0, 0⟩ : EdgeData))] bn a = some (⟨0, 0⟩ : EdgeData)
    simp [lookupA]

theorem lookup_buildStep_other (g : Graph) (e : Node × Node × Int) (u v : Node)
    (hk : ¬(e.1 = u ∧ e.2.1 = v)) (hrev : ¬(e.1 = v ∧ e.2.1 = u)) :
    lookupA (buildStep g e) u v = lookupA g u v := by
  obtain ⟨a, bn, c⟩ := e
  dsimp only at hk hrev
  unfold buildStep
  dsimp only
  have h1 : lookupA (setA g a bn ⟨c, 0⟩) u v = lookupA g u v :=
    lookupA_setA_other g a bn u v _ hk
  by_cases h2 : hasEdge (setA g a bn ⟨c, 0⟩) bn a
  · rw [if_pos h2]
    exact h1
  · rw [if_neg h2, lookupA_append, h1]
    cases hl : lookupA g u v with
    | some d => rfl
    | none =>
      show lookupA [(bn, a, (⟨0, 0⟩ : EdgeData))] u v = none
      simp only [lookupA]
      rw [if_neg (by rintro ⟨h3, h4⟩; exact hrev ⟨h4, h3⟩)]

theorem build_lookup (u v : Node) :
    ∀ (L : List (Node × Node × Int)) (g : Graph),
      lookupA (L.foldl buildStep g) u v =
        match declCap L u v with
        | some c => some (⟨c, 0⟩ : EdgeData)
        | none =>
          match lookupA g u v with
          | some d => some d
          | none => if hasDecl L v u then some ⟨0, 0⟩ else none := by
  intro L
  induction L with
  | nil =>
    intro g
    simp only [List.foldl_nil, declCap, hasDecl]
    cases lookupA g u v <;> rfl
  | cons e L ih =>
    intro g
    rw [List.foldl_cons, ih (buildStep g e)]
    by_cases hk : e.1 = u ∧ e.2.1 = v
    · cases hdc : declCap L u v with
      | some c =>
        simp only [declCap, hdc]
      | none =>
        simp only [declCap, hdc, lookup_buildStep_key g e u v hk, if_pos hk]
    · by_cases hrev : e.1 = v ∧ e.2.1 = u
      · cases hdc : declCap L u v with
        | some c =>
          simp only [declCap, hdc]
        | none =>
          have hd : hasDecl (e :: L) v u = true := by
            simp only [hasDecl, if_pos hrev]
          simp only [declCap, hdc, if_neg hk, lookup_buildStep_rev g e u v hrev hk, hd]
          cases lookupA g u v <;> simp
      · cases hdc : declCap L u v with
        | some c =>
          simp only [declCap, hdc]
        | none =>
          have hd : hasDecl (e :: L) v u = hasDecl L v u := by
            simp only [hasDecl, if_neg hrev]
          simp only [declCap, hdc, if_neg hk, lookup_buildStep_other g e u v hk hrev, hd]

theorem buildGraph_lookup (edges : List (Node × Node × Int)) (u v : Node) :
    lookupA (buildGraph edges) u v =
      match declCap edges u v with
      | some c => some (⟨c, 0⟩ : EdgeData)
      | none => if hasDecl edges v u then some ⟨0, 0⟩ else none := by
  unfold buildGraph
  rw [build_lookup u v edges []]
  cases declCap edges u v <;> rfl

theorem hasDecl_of_mem (edges : List (Node × Node × Int)) (e : Node × Node × Int)
    (he : e ∈ edges) : hasDecl edges e.1 e.2.1 = true := by
  induction edges with
  | nil => simp at he
  | cons x L ih =>
    rcases List.mem_cons.mp he with h1 | h2
    · subst h1
      simp [hasDecl]
    · by_cases hx : x.1 = e.1 ∧ x.2.1 = e.2.1
      · simp [hasDecl, hx]
      · simp only [hasDecl, if_neg hx]
        exact ih h2

theorem hasDecl_false_iff (L : List (Node × Node × Int)) (u v : Node) :
    hasDecl L u v = false ↔ ∀ e ∈ L, ¬(e.1 = u ∧ e.2.1 = v) := by
  induction L with
  | nil => simp [hasDecl]
  | cons x L ih =>
    by_cases hx : x.1 = u ∧ x.2.1 = v
    · simp only [hasDecl, if_pos hx]
      constructor
      · intro h; exact absurd h (by simp)
      · intro h
        exact absurd hx (h x (List.mem_cons_self _ _))
    · simp only [hasDecl, if_neg hx, ih]
      constructor
      · intro h e he
        rcases List.mem_cons.mp he with h1 | h2
        · subst h1; exact hx
        · exact h e h2
      · intro h e he
        exact h e (List.mem_cons_of_mem _ he)

/-- C8 counterexample: `build_graph` on the single edge `S -> T` with
capacity -1 does not fail; it constructs the graph, storing the negative
capacity as declared (there is no `GraphError` and no validation anywhere in
either builder, which is why the embedded builders are total functions). -/
theorem c8_counterexample :
    (ffBuild [("S", "T", -1)]).graph = [("S", "T", ⟨-1, 0⟩), ("T", "S", ⟨0, 0⟩)] ∧
    (csBuild [("S", "T", -1)]).graph = [("S", "T", ⟨-1, 0⟩), ("T", "S", ⟨0, 0⟩)] ∧
    (csBuild [("S", "T", -1)]).delta = 1 :=
  ⟨rfl, rfl, rfl⟩

/-- C8 amended: `build_graph` performs no capacity validation: on an edge
list declaring a negative capacity it succeeds and stores the declared
negative capacity (with flow 0) on the forward arc, for both builders. -/
theorem c8_amended (u v : Node) (c : Int) (_hc : c < 0) :
    lookupA (ffBuild [(u, v, c)]).graph u v = some ⟨c, 0⟩ ∧
    lookupA (csBuild [(u, v, c)]).graph u v = some ⟨c, 0⟩ := by
  have h := buildGraph_lookup [(u, v, c)] u v
  have hdc : declCap [(u, v, c)] u v = some c := by
    simp [declCap]
  rw [hdc] at h
  exact ⟨h, h⟩

/-- Witness for C8 at a concrete input: capacity -1. -/
theorem c8_amended_witness :
    lookupA (ffBuild [("S", "T", -1)]).graph "S" "T" = some ⟨-1, 0⟩ ∧
    lookupA (csBuild [("S", "T", -1)]).graph "S" "T" = some ⟨-1, 0⟩ :=
  c8_amended "S" "T" (-1) (by decide)

/-- C9: after `build_graph` (either builder), every declared arc `(u, v)` has
a paired reverse arc `(v, u)`; when `(v, u)` is not itself declared anywhere
in the edge list the reverse arc carries capacity 0 and flow 0, and when it
is declared it keeps its (last) declared capacity — in any input order. -/
theorem declCap_none_of_hasDecl_false (L : List (Node × Node × Int)) (u v : Node)
    (h : hasDecl L u v = false) : declCap L u v = none := by
  induction L with
  | nil => rfl
  | cons x L ih =>
    simp only [hasDecl] at h
    split at h
    · exact absurd h (by simp)
    · rename_i hx
      simp only [declCap, ih h, if_neg hx]

theorem c9_reverse_pairing (edges : List (Node × Node × Int)) (e : Node × Node × Int)
    (he : e ∈ edges) :
    ∃ d : EdgeData,
      lookupA (ffBuild edges).graph e.2.1 e.1 = some d ∧
      lookupA (csBuild edges).graph e.2.1 e.1 = some d ∧
      ((∀ e' ∈ edges, ¬(e'.1 = e.2.1 ∧ e'.2.1 = e.1)) → d = ⟨0, 0⟩) ∧
      (∀ c : Int, declCap edges e.2.1 e.1 = some c → d = ⟨c, 0⟩) := by
  have hchar := buildGraph_lookup edges e.2.1 e.1
  cases hdc : declCap edges e.2.1 e.1 with
  | some c =>
    rw [hdc] at hchar
    refine ⟨⟨c, 0⟩, hchar, hchar, ?_, ?_⟩
    · intro hnone
      have hfalse : hasDecl edges e.2.1 e.1 = false :=
        (hasDecl_false_iff _ _ _).mpr hnone
      have hnone' : declCap edges e.2.1 e.1 = none :=
        declCap_none_of_hasDecl_false _ _ _ hfalse
      rw [hdc] at hnone'
      exact absurd hnone' (by simp)
    · intro c' hc'
      injection hc' with h'
      rw [h']
  | none =>
    have hd : hasDecl edges e.1 e.2.1 = true := hasDecl_of_mem edges e he
    rw [hdc] at hchar
    dsimp only at hchar
    rw [hd] at hchar
    rw [if_pos rfl] at hchar
    refine ⟨⟨0, 0⟩, hchar, hchar, fun _ => rfl, ?_⟩
    intro c' hc'
    exact absurd hc' (by simp)

/-- Witness for C9 at a concrete input: the single declared edge `S -> T`
gets the implicit zero reverse arc `T -> S`. -/
theorem c9_reverse_pairing_witness :
    ∃ d : EdgeData,
      lookupA (ffBuild [("S", "T", 5)]).graph "T" "S" = some d ∧
      lookupA (csBuild [("S", "T", 5)]).graph "T" "S" = some d ∧
      ((∀ e' ∈ [(("S" : Node), ("T" : Node), (5 : Int))],
        ¬(e'.1 = "T" ∧ e'.2.1 = "S")) → d = ⟨0, 0⟩) ∧
      (∀ c : Int, declCap [("S", "T", 5)] "T" "S" = some c → d = ⟨c, 0⟩) :=
  c9_reverse_pairing [("S", "T", 5)] ("S", "T", 5) (by decide)

/-! ## Capacity bounds and the never-executed decrement branch (claim C4) -/

theorem keysA_residual_sublist (θ : Int) (g : Graph) :
    List.Sublist (keysA (residualAbove θ g)) (keysA g) := by
  induction g with
  | nil => simp [residualAbove, keysA]
  | cons e g ih =>
    obtain ⟨u, v, d⟩ := e
    by_cases h : θ ≤ d.capacity - d.flow
    · simp only [residualAbove, if_pos h, keysA_cons]
      exact ih.cons₂ _
    · simp only [residualAbove, if_neg h, keysA_cons]
      exact ih.cons _

theorem mem_residualAbove (θ : Int) (g : Graph) (u v : Node) (c : Int)
    (h : (u, v, c) ∈ residualAbove θ g) :
    ∃ d : EdgeData, (u, v, d) ∈ g ∧ c = d.capacity - d.flow ∧ θ ≤ c := by
  induction g with
  | nil => simp [residualAbove] at h
  | cons e g ih =>
    obtain ⟨a, bn, d0⟩ := e
    by_cases hc : θ ≤ d0.capacity - d0.flow
    · simp only [residualAbove, if_pos hc] at h
      rcases List.mem_cons.mp h with h1 | h2
      · injection h1 with h1a h1bc
        injection h1bc with h1b h1c
        subst h1a
        subst h1b
        subst h1c
        exact ⟨d0, List.mem_cons_self _ _, rfl, hc⟩
      · obtain ⟨d, hd, hcd, hθ⟩ := ih h2
        exact ⟨d, List.mem_cons_of_mem _ hd, hcd, hθ⟩
    · simp only [residualAbove, if_neg hc] at h
      obtain ⟨d, hd, hcd, hθ⟩ := ih h
      exact ⟨d, List.mem_cons_of_mem _ hd, hcd, hθ⟩

theorem residual_pair_lookup (θ : Int) (g : Graph) (hn : (keysA g).Nodup)
    (u v : Node) (hrel : ArcRel (residualAbove θ g) u v) :
    ∃ d : EdgeData, lookupA g u v = some d ∧ θ ≤ d.capacity - d.flow ∧
      lookupA (residualAbove θ g) u v = some (d.capacity - d.flow) := by
  obtain ⟨c, hc⟩ := hrel
  obtain ⟨d, hd, hcd, hθ⟩ := mem_residualAbove θ g u v c hc
  have hnR : (keysA (residualAbove θ g)).Nodup :=
    List.Nodup.sublist (keysA_residual_sublist θ g) hn
  refine ⟨d, mem_lookupA g u v d hn hd, by omega, ?_⟩
  rw [mem_lookupA _ u v c hnR hc, hcd]

theorem lookup_some_key_mem {α : Type} (g : List (Node × Node × α)) (u v : Node) (d : α)
    (h : lookupA g u v = some d) : (u, v) ∈ keysA g := by
  by_contra hc
  rw [← lookupA_eq_none_iff] at hc
  rw [hc] at h
  cases h

theorem bottleneck_le (R : List (Node × Node × Int)) (q : List Node)
    (uv : Node × Node) (huv : uv ∈ consecPairs q) (c : Int)
    (hc : lookupA R uv.1 uv.2 = some c) : bottleneckOf R q ≤ c := by
  apply minList_le_of_mem
  refine List.mem_map.mpr ⟨uv, huv, ?_⟩
  rw [hc]
  rfl

theorem le_bottleneck (R : List (Node × Node × Int)) (q : List Node)
    (hne : consecPairs q ≠ []) (b0 : Int)
    (h : ∀ uv ∈ consecPairs q, ∃ c, lookupA R uv.1 uv.2 = some c ∧ b0 ≤ c) :
    b0 ≤ bottleneckOf R q := by
  apply le_minList
  · simpa using hne
  · intro x hx
    obtain ⟨uv, huv, hxe⟩ := List.mem_map.mp hx
    obtain ⟨c, hc, hbc⟩ := h uv huv
    rw [← hxe, hc]
    exact hbc

theorem augmentPath_nil_pairs (g : Graph) (q : List Node) (b : Int)
    (h : consecPairs q = []) : augmentPath g q b = .ok g ∧ augmentPathFwd g q b = .ok g := by
  match q with
  | [] => exact ⟨rfl, rfl⟩
  | [x] => exact ⟨rfl, rfl⟩
  | u :: v :: rest => simp [consecPairs] at h

theorem augment_fwd (b : Int) :
    ∀ (q : List Node) (g : Graph),
      q.Nodup →
      (∀ uv ∈ consecPairs q, ∃ d : EdgeData, lookupA g uv.1 uv.2 = some d ∧
        d.flow + b ≤ d.capacity) →
      ∃ g', augmentPath g q b = .ok g' ∧ augmentPathFwd g q b = .ok g' ∧
        keysA g' = keysA g ∧
        (∀ u0 v0 : Node, (∀ uv ∈ consecPairs q, ¬(uv.1 = u0 ∧ uv.2 = v0)) →
          lookupA g' u0 v0 = lookupA g u0 v0) ∧
        (∀ uv ∈ consecPairs q, ∀ d : EdgeData, lookupA g uv.1 uv.2 = some d →
          lookupA g' uv.1 uv.2 = some ⟨d.capacity, d.flow + b⟩) := by
  intro q
  induction q with
  | nil =>
    intro g _ _
    exact ⟨g, rfl, rfl, rfl, fun _ _ _ => rfl, fun uv huv => by simp [consecPairs] at huv⟩
  | cons u q ih =>
    cases q with
    | nil =>
      intro g _ _
      exact ⟨g, rfl, rfl, rfl, fun _ _ _ => rfl, fun uv huv => by simp [consecPairs] at huv⟩
    | cons v rest =>
      intro g hnd hres
      have hfirst : ((u, v) : Node × Node) ∈ consecPairs (u :: v :: rest) := by
        rw [consecPairs]
        exact List.mem_cons_self _ _
      obtain ⟨d, hd, hcond⟩ := hres (u, v) hfirst
      have hstep : augmentEdge g u v b = .ok (setA g u v ⟨d.capacity, d.flow + b⟩) := by
        unfold augmentEdge
        rw [hd]
        dsimp only
        rw [if_pos hcond]
      have hstepF : augmentEdgeFwd g u v b = .ok (setA g u v ⟨d.capacity, d.flow + b⟩) := by
        unfold augmentEdgeFwd
        rw [hd]
        dsimp only
        rw [if_pos hcond]
      have hu_ne : ∀ uv ∈ consecPairs (v :: rest), uv.1 ≠ u := by
        intro uv huv
        have h1 : uv.1 ∈ v :: rest := (consecPairs_mem uv (v :: rest) huv).1
        intro he
        rw [List.nodup_cons] at hnd
        rw [← he] at hnd
        exact hnd.1 h1
      have hlook1 : ∀ uv ∈ consecPairs (v :: rest),
          lookupA (setA g u v ⟨d.capacity, d.flow + b⟩) uv.1 uv.2 = lookupA g uv.1 uv.2 := by
        intro uv huv
        apply lookupA_setA_other
        rintro ⟨h1, _⟩
        exact hu_ne uv huv h1.symm
      have hres1 : ∀ uv ∈ consecPairs (v :: rest), ∃ d' : EdgeData,
          lookupA (setA g u v ⟨d.capacity, d.flow + b⟩) uv.1 uv.2 = some d' ∧
          d'.flow + b ≤ d'.capacity := by
        intro uv huv
        obtain ⟨d', hd', hcond'⟩ := hres uv
          (by rw [consecPairs]; exact List.mem_cons_of_mem _ huv)
        refine ⟨d', ?_, hcond'⟩
        rw [hlook1 uv huv]
        exact hd'
      obtain ⟨g', hA, hF, hkeys, hother, hbump⟩ :=
        ih (setA g u v ⟨d.capacity, d.flow + b⟩) (List.Nodup.of_cons hnd) hres1
      refine ⟨g', ?_, ?_, ?_, ?_, ?_⟩
      · simp only [augmentPath]
        rw [hstep]
        exact hA
      · simp only [augmentPathFwd]
        rw [hstepF]
        exact hF
      · rw [hkeys]
        exact keysA_setA_of_mem g u v _ (lookup_some_key_mem g u v d hd)
      · intro u0 v0 havoid
        have h1 : lookupA g' u0 v0 = lookupA (setA g u v ⟨d.capacity, d.flow + b⟩) u0 v0 :=
          hother u0 v0 fun uv huv =>
            havoid uv (by rw [consecPairs]; exact List.mem_cons_of_mem _ huv)
        rw [h1]
        apply lookupA_setA_other
        exact havoid (u, v) hfirst
      · intro uv huv d0 hd0
        rw [consecPairs] at huv
        rcases List.mem_cons.mp huv with h1 | h2
        · subst h1
          have hd0d : d0 = d := by
            rw [hd] at hd0
            injection hd0 with h'
            exact h'.symm
          subst hd0d
          have havoid : ∀ uv' ∈ consecPairs (v :: rest), ¬(uv'.1 = u ∧ uv'.2 = v) :=
            fun uv' huv' hh => hu_ne uv' huv' hh.1
          rw [hother u v havoid]
          exact lookupA_setA_self g u v _
        · apply hbump uv h2 d0
          rw [hlook1 uv h2]
          exact hd0

theorem stepAug (θ : Int) (hθ : 1 ≤ θ) (g : Graph) (s t : Node)
    (hn : (keysA g).Nodup)
    (hbound : ∀ x ∈ g, 0 ≤ x.2.2.flow ∧ x.2.2.flow ≤ x.2.2.capacity)
    (q : List Node) (hq : shortestPath (residualAbove θ g) s t = .ok q) :
    ∃ g', augmentPath g q (bottleneckOf (residualAbove θ g) q) = .ok g' ∧
      augmentPathFwd g q (bottleneckOf (residualAbove θ g) q) = .ok g' ∧
      (keysA g').Nodup ∧
      ∀ x ∈ g', 0 ≤ x.2.2.flow ∧ x.2.2.flow ≤ x.2.2.capacity := by
  obtain ⟨hhead, hlast, hchain, hnodup⟩ := shortestPath_sound _ s t q hq
  by_cases hpairs : consecPairs q = []
  · obtain ⟨h1, h2⟩ := augmentPath_nil_pairs g q (bottleneckOf (residualAbove θ g) q) hpairs
    exact ⟨g, h1, h2, hn, hbound⟩
  · have hrels := chain'_consecPairs (ArcRel (residualAbove θ g)) q hchain
    have hpair_data : ∀ uv ∈ consecPairs q, ∃ d : EdgeData,
        lookupA g uv.1 uv.2 = some d ∧ θ ≤ d.capacity - d.flow ∧
        lookupA (residualAbove θ g) uv.1 uv.2 = some (d.capacity - d.flow) := fun uv huv =>
      residual_pair_lookup θ g hn uv.1 uv.2 (hrels uv huv)
    have hbθ : θ ≤ bottleneckOf (residualAbove θ g) q := by
      apply le_bottleneck (residualAbove θ g) q hpairs
      intro uv huv
      obtain ⟨d, _, hθd, hRl⟩ := hpair_data uv huv
      exact ⟨d.capacity - d.flow, hRl, hθd⟩
    have hb1 : 1 ≤ bottleneckOf (residualAbove θ g) q := le_trans hθ hbθ
    have hres : ∀ uv ∈ consecPairs q, ∃ d : EdgeData,
        lookupA g uv.1 uv.2 = some d ∧
        d.flow + bottleneckOf (residualAbove θ g) q ≤ d.capacity := by
      intro uv huv
      obtain ⟨d, hgl, hθd, hRl⟩ := hpair_data uv huv
      have hble : bottleneckOf (residualAbove θ g) q ≤ d.capacity - d.flow :=
        bottleneck_le (residualAbove θ g) q uv huv _ hRl
      exact ⟨d, hgl, by omega⟩
    obtain ⟨g', hA, hF, hkeys, hother, hbump⟩ :=
      augment_fwd (bottleneckOf (residualAbove θ g) q) q g hnodup hres
    have hng' : (keysA g').Nodup := by
      rw [hkeys]
      exact hn
    refine ⟨g', hA, hF, hng', ?_⟩
    intro x hx
    obtain ⟨x1, x2, xd⟩ := x
    have hxl : lookupA g' x1 x2 = some xd := mem_lookupA g' x1 x2 xd hng' hx
    dsimp only
    by_cases hmem : ∃ uv ∈ consecPairs q, uv.1 = x1 ∧ uv.2 = x2
    · obtain ⟨uv, huv, he1, he2⟩ := hmem
      obtain ⟨d, hgl, hθd, hRl⟩ := hpair_data uv huv
      have hbl : lookupA g' uv.1 uv.2 =
          some ⟨d.capacity, d.flow + bottleneckOf (residualAbove θ g) q⟩ :=
        hbump uv huv d hgl
      rw [he1, he2, hxl] at hbl
      injection hbl with h'
      have hdmem : (uv.1, uv.2, d) ∈ g := lookupA_mem g uv.1 uv.2 d hgl
      have hdb := hbound _ hdmem
      dsimp only at hdb
      have hble : bottleneckOf (residualAbove θ g) q ≤ d.capacity - d.flow :=
        bottleneck_le (residualAbove θ g) q uv huv _ hRl
      rw [h']
      dsimp only
      omega
    · push_neg at hmem
      have hun : lookupA g' x1 x2 = lookupA g x1 x2 :=
        hother x1 x2 fun uv huv hcon => hmem uv huv hcon.1 hcon.2
      rw [hxl] at hun
      have hxg : (x1, x2, xd) ∈ g := lookupA_mem g x1 x2 xd hun.symm
      have := hbound _ hxg
      dsimp only at this
      exact this

theorem buildStep_caps (g : Graph) (e : Node × Node × Int) (he : 0 ≤ e.2.2)
    (h : ∀ x ∈ g, 0 ≤ x.2.2.capacity) : ∀ x ∈ buildStep g e, 0 ≤ x.2.2.capacity := by
  unfold buildStep
  intro x hx
  have hset : ∀ y ∈ setA g e.1 e.2.1 ⟨e.2.2, 0⟩, 0 ≤ y.2.2.capacity := by
    intro y hy
    rcases mem_setA g e.1 e.2.1 _ y hy with h1 | h2
    · exact h y h1
    · subst h2
      exact he
  by_cases h2 : hasEdge (setA g e.1 e.2.1 ⟨e.2.2, 0⟩) e.2.1 e.1
  · rw [if_pos h2] at hx
    exact hset x hx
  · rw [if_neg h2] at hx
    rcases List.mem_append.mp hx with h3 | h4
    · exact hset x h3
    · have hxe : x = (e.2.1, e.1, ⟨0, 0⟩) := by simpa using h4
      subst hxe
      exact le_refl 0

theorem buildGraph_caps_nonneg (edges : List (Node × Node × Int))
    (hcap : ∀ e ∈ edges, 0 ≤ e.2.2) : ∀ x ∈ buildGraph edges, 0 ≤ x.2.2.capacity := by
  unfold buildGraph
  have h : ∀ (L : List (Node × Node × Int)) (g : Graph), (∀ e ∈ L, 0 ≤ e.2.2) →
      (∀ x ∈ g, 0 ≤ x.2.2.capacity) → ∀ x ∈ L.foldl buildStep g, 0 ≤ x.2.2.capacity := by
    intro L
    induction L with
    | nil => intro g _ hg; simpa using hg
    | cons e L ih =>
      intro g hL hg
      exact ih (buildStep g e) (fun e' he' => hL e' (List.mem_cons_of_mem _ he'))
        (buildStep_caps g e (hL e (List.mem_cons_self _ _)) hg)
  exact h edges [] hcap (by simp)

theorem ffStep_invF (s t : Node) (st : FFState)
    (hn : (keysA st.graph).Nodup)
    (hbound : ∀ x ∈ st.graph, 0 ≤ x.2.2.flow ∧ x.2.2.flow ≤ x.2.2.capacity) :
    ffStepF s t st = ffStep s t st ∧
    ∀ r st', ffStep s t st = .ok (r, st') →
      (keysA st'.graph).Nodup ∧
      ∀ x ∈ st'.graph, 0 ≤ x.2.2.flow ∧ x.2.2.flow ≤ x.2.2.capacity := by
  constructor
  · simp only [ffStep, ffStepF, getResidualGraph]
    cases hsp : shortestPath (residualAbove 1 st.graph) s t with
    | error e => cases e <;> rfl
    | ok q =>
      obtain ⟨g', hA, hF, _, _⟩ := stepAug 1 (le_refl 1) st.graph s t hn hbound q hsp
      dsimp only
      rw [hA, hF]
  · intro r st' h
    rcases ffStep_cases s t st st' r h with ⟨_, _, hstst⟩ | ⟨p, hsp, haug, _, _⟩
    · rw [hstst]
      exact ⟨hn, hbound⟩
    · simp only [getResidualGraph] at hsp haug
      obtain ⟨g', hA, hF, hn', hbound'⟩ := stepAug 1 (le_refl 1) st.graph s t hn hbound p hsp
      have hgg : st'.graph = g' := by
        rw [haug] at hA
        exact Except.ok.inj hA
      rw [hgg]
      exact ⟨hn', hbound'⟩

theorem csStep_invF (s t : Node) (st : CSState)
    (hn : (keysA st.graph).Nodup)
    (hbound : ∀ x ∈ st.graph, 0 ≤ x.2.2.flow ∧ x.2.2.flow ≤ x.2.2.capacity) :
    csStepF s t st = csStep s t st ∧
    ∀ r st', csStep s t st = .ok (r, st') →
      (keysA st'.graph).Nodup ∧
      ∀ x ∈ st'.graph, 0 ≤ x.2.2.flow ∧ x.2.2.flow ≤ x.2.2.capacity := by
  constructor
  · by_cases hδ : st.delta < 1
    · simp only [csStep, csStepF, if_pos hδ]
    · simp only [csStep, csStepF, if_neg hδ]
      cases hsp : shortestPath (residualAbove st.delta st.graph) s t with
      | error e => cases e <;> rfl
      | ok q =>
        obtain ⟨g', hA, hF, _, _⟩ :=
          stepAug st.delta (by omega) st.graph s t hn hbound q hsp
        dsimp only
        rw [hA, hF]
  · intro r st' h
    rcases csStep_cases s t st st' r h with ⟨_, _, hstst⟩ | ⟨_, _, _, hstst⟩ |
      ⟨hδ, p, hsp, haug, _, _⟩
    · rw [hstst]
      exact ⟨hn, hbound⟩
    · rw [hstst]
      exact ⟨hn, hbound⟩
    · obtain ⟨g', hA, hF, hn', hbound'⟩ :=
        stepAug st.delta (by omega) st.graph s t hn hbound p hsp
      have hgg : st'.graph = g' := by
        rw [haug] at hA
        exact Except.ok.inj hA
      rw [hgg]
      exact ⟨hn', hbound'⟩

theorem ffRun_invF (s t : Node) :
    ∀ (n : Nat) (st : FFState),
      (keysA st.graph).Nodup →
      (∀ x ∈ st.graph, 0 ≤ x.2.2.flow ∧ x.2.2.flow ≤ x.2.2.capacity) →
      ffRunF s t n st = ffRun s t n st ∧
      ∀ st', ffRun s t n st = .ok st' →
        (keysA st'.graph).Nodup ∧
        ∀ x ∈ st'.graph, 0 ≤ x.2.2.flow ∧ x.2.2.flow ≤ x.2.2.capacity := by
  intro n
  induction n with
  | zero =>
    intro st hn hbound
    refine ⟨rfl, ?_⟩
    intro st' h
    have hss : st' = st := by
      simp only [ffRun] at h
      injection h with h'
      exact h'.symm
    rw [hss]
    exact ⟨hn, hbound⟩
  | succ n ih =>
    intro st hn hbound
    obtain ⟨heqF, hinv⟩ := ffStep_invF s t st hn hbound
    constructor
    · simp only [ffRun, ffRunF]
      rw [heqF]
      cases hstep : ffStep s t st with
      | error e => rfl
      | ok r =>
        have hr := hinv r.1 r.2 (by rw [hstep])
        exact (ih r.2 hr.1 hr.2).1
    · intro st' h
      simp only [ffRun] at h
      split at h
      · rename_i r hstep
        have hr := hinv r.1 r.2 (by rw [hstep])
        exact (ih r.2 hr.1 hr.2).2 st' h
      · exact absurd h (by simp)

theorem csRun_invF (s t : Node) :
    ∀ (n : Nat) (st : CSState),
      (keysA st.graph).Nodup →
      (∀ x ∈ st.graph, 0 ≤ x.2.2.flow ∧ x.2.2.flow ≤ x.2.2.capacity) →
      csRunF s t n st = csRun s t n st ∧
      ∀ st', csRun s t n st = .ok st' →
        (keysA st'.graph).Nodup ∧
        ∀ x ∈ st'.graph, 0 ≤ x.2.2.flow ∧ x.2.2.flow ≤ x.2.2.capacity := by
  intro n
  induction n with
  | zero =>
    intro st hn hbound
    refine ⟨rfl, ?_⟩
    intro st' h
    have hss : st' = st := by
      simp only [csRun] at h
      injection h with h'
      exact h'.symm
    rw [hss]
    exact ⟨hn, hbound⟩
  | succ n ih =>
    intro st hn hbound
    obtain ⟨heqF, hinv⟩ := csStep_invF s t st hn hbound
    constructor
    · simp only [csRun, csRunF]
      rw [heqF]
      cases hstep : csStep s t st with
      | error e => rfl
      | ok r =>
        have hr := hinv r.1 r.2 (by rw [hstep])
        exact (ih r.2 hr.1 hr.2).1
    · intro st' h
      simp only [csRun] at h
      split at h
      · rename_i r hstep
        have hr := hinv r.1 r.2 (by rw [hstep])
        exact (ih r.2 hr.1 hr.2).2 st' h
      · exact absurd h (by simp)

/-- C4 counterexample: the claim quantifies over every graph built via
`build_graph`, but an edge declared with negative capacity (accepted by the
unvalidating builder) starts with `flow = 0 > capacity`, violating
`0 <= flow <= capacity` already after zero steps. -/
theorem c4_counterexample :
    lookupA (ffBuild [("S", "T", -1)]).graph "S" "T" = some ⟨-1, 0⟩ ∧
    ¬((0 : Int) ≤ -1) :=
  ⟨rfl, by decide⟩

/-- C4 amended: when every declared capacity is non-negative, after any
sequence of completed `step()` calls of either stepper each arc satisfies
`0 ≤ flow ≤ capacity`, and the reverse-arc decrement branch is never
executed: both steppers compute exactly what their forward-only variants
(which error instead of decrementing) compute. -/
theorem c4_amended (edges : List (Node × Node × Int))
    (hcap : ∀ e ∈ edges, 0 ≤ e.2.2) (s t : Node) :
    (∀ (n : Nat) (st : FFState), ffRun s t n (ffBuild edges) = .ok st →
      ∀ (u v : Node) (d : EdgeData), lookupA st.graph u v = some d →
        0 ≤ d.flow ∧ d.flow ≤ d.capacity) ∧
    (∀ n : Nat, ffRunF s t n (ffBuild edges) = ffRun s t n (ffBuild edges)) ∧
    (∀ (n : Nat) (st : CSState), csRun s t n (csBuild edges) = .ok st →
      ∀ (u v : Node) (d : EdgeData), lookupA st.graph u v = some d →
        0 ≤ d.flow ∧ d.flow ≤ d.capacity) ∧
    (∀ n : Nat, csRunF s t n (csBuild edges) = csRun s t n (csBuild edges)) := by
  have hn : (keysA (buildGraph edges)).Nodup := buildGraph_keys_nodup edges
  have hbound : ∀ x ∈ buildGraph edges, 0 ≤ x.2.2.flow ∧ x.2.2.flow ≤ x.2.2.capacity := by
    intro x hx
    have h1 := buildGraph_flows_zero edges x hx
    have h2 := buildGraph_caps_nonneg edges hcap x hx
    omega
  refine ⟨?_, ?_, ?_, ?_⟩
  · intro n st h u v d hd
    have hinv := (ffRun_invF s t n (ffBuild edges) hn hbound).2 st h
    exact hinv.2 (u, v, d) (lookupA_mem st.graph u v d hd)
  · intro n
    exact (ffRun_invF s t n (ffBuild edges) hn hbound).1
  · intro n st h u v d hd
    have hinv := (csRun_invF s t n (csBuild edges) hn hbound).2 st h
    exact hinv.2 (u, v, d) (lookupA_mem st.graph u v d hd)
  · intro n
    exact (csRun_invF s t n (csBuild edges) hn hbound).1

/-- Witness for C4 at a concrete input: one step on `S -> T` (capacity 2)
saturates the arc and the bounds hold. -/
theorem c4_amended_witness :
    ffRun "S" "T" 1 (ffBuild [("S", "T", 2)]) =
      .ok ⟨[("S", "T", ⟨2, 2⟩), ("T", "S", ⟨0, 0⟩)], 2⟩ ∧
    ((0 : Int) ≤ 2 ∧ (2 : Int) ≤ 2) :=
  ⟨rfl, (c4_amended [("S", "T", 2)] (by decide) "S" "T").1 1
    ⟨[("S", "T", ⟨2, 2⟩), ("T", "S", ⟨0, 0⟩)], 2⟩ rfl "S" "T" ⟨2, 2⟩ rfl⟩

/-! ## Crew-pairing reduction (claim C10) -/

theorem amendedAirlineGraph_eq (flights : List Flight) :
    amendedAirlineGraph flights = airlineGraph flights := by
  unfold amendedAirlineGraph airlineGraph
  apply List.foldl_ext
  intro g f1 _
  apply List.foldl_ext
  intro g2 f2 _
  by_cases h1 : f1 = f2
  · simp [h1]
  · by_cases h2 : f1.«end» ≤ f2.start
    · simp [h1, h2]
    · simp [h1, h2]

/-- C10 counterexample: for the single degenerate task with start 5 and
end 3 (end ≤ its own start) the graph described by the claim contains the
self-pair arc `A_in -> A_out`, giving max-flow 1 and `min_units = 0`, while
the code (which skips equal task records) builds no such arc and returns
`min_units = 1`. -/
theorem c10_counterexample :
    (solve_airline [⟨"A", 5, 3⟩]).1 = 1 ∧
    (([(⟨"A", 5, 3⟩ : Flight)].length : Int) -
      maximumFlow (claimAirlineGraph [⟨"A", 5, 3⟩]) "S" "T") = 0 ∧
    (1 : Int) ≠ 0 :=
  ⟨rfl, rfl, by decide⟩

/-- C10 amended: `solve_airline` returns
`min_units = total_tasks - max_flow` of the bipartite graph that has an arc
`t1_in -> t2_out` of capacity 1 exactly when the two task records are
distinct and `t1.end <= t2.start`; on the three demo tasks `(0,4)`, `(5,9)`,
`(2,6)` it returns `min_units = 2` with 1 matched pair. -/
theorem c10_amended :
    (∀ flights : List Flight, (solve_airline flights).1 =
      (flights.length : Int) - maximumFlow (amendedAirlineGraph flights) "S" "T") ∧
    (solve_airline demoFlights).1 = 2 ∧ (solve_airline demoFlights).2 = 1 := by
  refine ⟨?_, rfl, rfl⟩
  intro flights
  rw [amendedAirlineGraph_eq]
  rfl
